import Mathlib

/-!
Shallow embedding of the QOI codec from `qoi.c` / `qoi.h`
(encoder `qoi_encode`, decoder `qoi_decode`, and their helpers),
together with theorems settling the specification claims.

Machine integers are modelled as `Nat` with explicit `% 256` where the C
code stores into a `uint8_t` or converts to `int8_t`; `int8_t` values are
modelled as `Int` in the range `[-128, 127]` via `wrap8`.
-/

namespace Qoi

/-- One pixel: the four unsigned byte channels of the union `QOI_RGBA_T`
in `qoi.h`.  Comparing two pixels for equality models comparing the
32-bit `.v` views (`px_curr.v == px_prev.v`), which is component-wise
byte equality. -/
structure Pixel where
  r : Nat
  g : Nat
  b : Nat
  a : Nat
deriving DecidableEq

/-- The all-zero pixel `(0,0,0,0)`: content of every hash-table slot after
the `memset(mem, 0, sizeof(mem))` in both `qoi_encode` and `qoi_decode`. -/
def pix0 : Pixel := ⟨0, 0, 0, 0⟩

/-- The initial previous/current pixel `(0,0,0,255)` of both the encoder
(`px_prev`, qoi.c line 101) and the decoder (`px_curr`, qoi.c line 277). -/
def pixInit : Pixel := ⟨0, 0, 0, 255⟩

/-- `QOI_HEADER_SIZE` from qoi.h. -/
def QOI_HEADER_SIZE : Nat := 14

/-- `QOI_MAGIC` from qoi.h: `"qoif"` as a big-endian 32-bit value. -/
def QOI_MAGIC : Nat := 0x716f6966

/-- `QOI_MAXIMUM_PIXELS` from qoi.h. -/
def QOI_MAXIMUM_PIXELS : Nat := 400000000

/-- `QOI_MAXIMUM_RUN` from qoi.h. -/
def QOI_MAXIMUM_RUN : Nat := 62

/-- `QOI_OP_INDEX` from qoi.h. -/
def QOI_OP_INDEX : Nat := 0x00

/-- `QOI_OP_DIFF` from qoi.h. -/
def QOI_OP_DIFF : Nat := 0x40

/-- `QOI_OP_LUMA` from qoi.h. -/
def QOI_OP_LUMA : Nat := 0x80

/-- `QOI_OP_RUN` from qoi.h. -/
def QOI_OP_RUN : Nat := 0xc0

/-- `QOI_OP_RGB` from qoi.h. -/
def QOI_OP_RGB : Nat := 0xfe

/-- `QOI_OP_RGBA` from qoi.h. -/
def QOI_OP_RGBA : Nat := 0xff

/-- The 8-byte end-of-stream padding `qoi_padding` from qoi.c. -/
def qoi_padding : List Nat := [0, 0, 0, 0, 0, 0, 0, 1]

/-- `qoi_hash` from qoi.c: `(r*3 + g*5 + b*7 + a*11) % 64`.  The C
multiplications and additions happen after integer promotion (maximum
value `255*26 = 6630`, no overflow), so plain `Nat` arithmetic is exact. -/
def qoi_hash (color : Pixel) : Nat :=
  (color.r * 3 + color.g * 5 + color.b * 7 + color.a * 11) % 64

/-- Conversion of an `int` value to `int8_t`, as gcc implements it:
two's-complement wrap-around into `[-128, 127]`. -/
def wrap8 (x : Int) : Int := (x + 128) % 256 - 128

/-- The descriptor `qoi_desc` from qoi.h.  `width`/`height` model
`uint32_t` fields and `channels`/`colorspace` model `uint8_t` fields. -/
structure qoi_desc where
  width : Nat
  height : Nat
  channels : Nat
  colorspace : Nat
deriving DecidableEq

/-- A load of one `uint8_t` from the byte buffer at index `i`
(out-of-range defaults to 0; every in-range byte of a `uint8_t` buffer is
below 256, hence the `% 256` view of the stored value). -/
def readByte (bytes : List Nat) (i : Nat) : Nat := bytes.getD i 0 % 256

/-- `qoi_read_32` from qoi.c at a fixed index: four byte loads combined
big-endian.  The C `a << 24 | b << 16 | c << 8 | d` combines disjoint bit
ranges, so the bitwise-or is addition. -/
def read_32 (bytes : List Nat) (i : Nat) : Nat :=
  readByte bytes i * 16777216 + readByte bytes (i + 1) * 65536 +
    readByte bytes (i + 2) * 256 + readByte bytes (i + 3)

/-- `qoi_write_32` from qoi.c: the four big-endian bytes of a `uint32_t`
value, most significant first. -/
def write_32 (val : Nat) : List Nat :=
  [val / 16777216 % 256, val / 65536 % 256, val / 256 % 256, val % 256]

/-- The 14-byte header emitted by `qoi_encode` (qoi.c lines 90-95):
magic, width, height (each big-endian u32), then the channels and
colorspace bytes. -/
def qoiHeader (desc : qoi_desc) : List Nat :=
  write_32 QOI_MAGIC ++ write_32 desc.width ++ write_32 desc.height ++
    [desc.channels, desc.colorspace]

/-- The pixel sequence read by the encoder main loop from the raw input
buffer (qoi.c lines 114-122).  For `channels == 4` the four bytes at
`px_pos` are the `r,g,b,a` fields of the loaded `qoi_rgba_t`.  For
`channels == 3` only `r,g,b` are assigned and `px_curr.rgba.a` keeps its
prior value, which is its initial 255 throughout the whole loop (no
3-channel iteration ever assigns it), so the alpha of every parsed pixel
is the constant 255. -/
def toPixels : Nat → List Nat → List Pixel
  | 4, r :: g :: b :: a :: rest => ⟨r, g, b, a⟩ :: toPixels 4 rest
  | 3, r :: g :: b :: rest => ⟨r, g, b, 255⟩ :: toPixels 3 rest
  | _, _ => []

/-- The byte buffer written by the decoder main loop (qoi.c lines
323-330): for `channels == 4` all four pixel bytes, for `channels == 3`
only `r,g,b`. -/
def fromPixels : Nat → List Pixel → List Nat
  | 4, p :: rest => p.r :: p.g :: p.b :: p.a :: fromPixels 4 rest
  | 3, p :: rest => p.r :: p.g :: p.b :: fromPixels 3 rest
  | _, _ => []

/-- The encoder loop state of `qoi_encode`: the previous pixel, the
64-slot hash table `mem` (a total function; all accesses are at hash
values below 64), and the pending run length. -/
structure EncSt where
  px_prev : Pixel
  mem : Nat → Pixel
  run : Nat

/-- The initial encoder state: `px_prev = (0,0,0,255)`, a zeroed hash
table and `run = 0` (qoi.c lines 101-111). -/
def encInit : EncSt := ⟨pixInit, fun _ => pix0, 0⟩

/-- The `int8_t dr = px_curr.rgba.r - px_prev.rgba.r` of qoi.c line 153:
the byte difference wrapped into a signed 8-bit value. -/
def drOf (pc pp : Pixel) : Int := wrap8 ((pc.r : Int) - (pp.r : Int))

/-- `int8_t dg` of qoi.c line 154. -/
def dgOf (pc pp : Pixel) : Int := wrap8 ((pc.g : Int) - (pp.g : Int))

/-- `int8_t db` of qoi.c line 155. -/
def dbOf (pc pp : Pixel) : Int := wrap8 ((pc.b : Int) - (pp.b : Int))

/-- The range test of the `QOI_OP_DIFF` branch (qoi.c lines 158-160). -/
def DiffOk (pc pp : Pixel) : Prop :=
  (-2 ≤ drOf pc pp ∧ drOf pc pp ≤ 1) ∧ (-2 ≤ dgOf pc pp ∧ dgOf pc pp ≤ 1) ∧
    (-2 ≤ dbOf pc pp ∧ dbOf pc pp ≤ 1)

instance (pc pp : Pixel) : Decidable (DiffOk pc pp) := by
  unfold DiffOk; infer_instance

/-- The range test of the `QOI_OP_LUMA` branch (qoi.c lines 168-170),
where `dr_dg` and `db_dg` are the `int8_t` differences of qoi.c lines
164-165. -/
def LumaOk (pc pp : Pixel) : Prop :=
  (-32 ≤ dgOf pc pp ∧ dgOf pc pp ≤ 31) ∧
    (-8 ≤ wrap8 (drOf pc pp - dgOf pc pp) ∧ wrap8 (drOf pc pp - dgOf pc pp) ≤ 7) ∧
    (-8 ≤ wrap8 (dbOf pc pp - dgOf pc pp) ∧ wrap8 (dbOf pc pp - dgOf pc pp) ≤ 7)

instance (pc pp : Pixel) : Decidable (LumaOk pc pp) := by
  unfold LumaOk; infer_instance

/-- The `QOI_OP_DIFF` byte (qoi.c line 162): the C bitwise-ors combine
disjoint bit ranges, hence addition; the `int` value is stored into a
`uint8_t` cell, `Int.toNat` recovers its (in-range) byte value. -/
def diffByte (pc pp : Pixel) : Nat :=
  ((QOI_OP_DIFF : Int) + (drOf pc pp + 2) * 16 + (dgOf pc pp + 2) * 4 +
    (dbOf pc pp + 2)).toNat

/-- The first `QOI_OP_LUMA` byte (qoi.c line 171). -/
def lumaByte1 (pc pp : Pixel) : Nat := ((QOI_OP_LUMA : Int) + (dgOf pc pp + 32)).toNat

/-- The second `QOI_OP_LUMA` byte (qoi.c line 172). -/
def lumaByte2 (pc pp : Pixel) : Nat :=
  ((wrap8 (drOf pc pp - dgOf pc pp) + 8) * 16 + (wrap8 (dbOf pc pp - dgOf pc pp) + 8)).toNat

/-- One iteration of the `qoi_encode` main loop (qoi.c lines 114-194) on
pixel `px_curr`, where `last` states `px_pos == px_end` (final pixel).
Returns the updated state and the bytes appended to the output. -/
def encStep (last : Bool) (px_curr : Pixel) (s : EncSt) : EncSt × List Nat :=
  if px_curr = s.px_prev then
    -- run continuation (qoi.c lines 125-133)
    let run := s.run + 1
    if run = QOI_MAXIMUM_RUN ∨ last then
      (⟨px_curr, s.mem, 0⟩, [QOI_OP_RUN + (run - 1)])
    else
      (⟨px_curr, s.mem, run⟩, [])
  else
    -- flush a pending run (qoi.c lines 136-140)
    let flush := if s.run > 0 then [QOI_OP_RUN + (s.run - 1)] else []
    let mem_pos := qoi_hash px_curr
    if px_curr = s.mem mem_pos then
      -- QOI_OP_INDEX (qoi.c line 147); the opcode tag 0x00 leaves the byte = mem_pos
      (⟨px_curr, s.mem, 0⟩, flush ++ [QOI_OP_INDEX + mem_pos])
    else
      let mem := Function.update s.mem mem_pos px_curr
      if px_curr.a = s.px_prev.a then
        if DiffOk px_curr s.px_prev then
          -- QOI_OP_DIFF (qoi.c line 162)
          (⟨px_curr, mem, 0⟩, flush ++ [diffByte px_curr s.px_prev])
        else if LumaOk px_curr s.px_prev then
          -- QOI_OP_LUMA (qoi.c lines 171-172)
          (⟨px_curr, mem, 0⟩, flush ++ [lumaByte1 px_curr s.px_prev, lumaByte2 px_curr s.px_prev])
        else
          -- QOI_OP_RGB (qoi.c lines 175-178)
          (⟨px_curr, mem, 0⟩, flush ++ [QOI_OP_RGB, px_curr.r, px_curr.g, px_curr.b])
      else
        -- QOI_OP_RGBA (qoi.c lines 183-187)
        (⟨px_curr, mem, 0⟩,
          flush ++ [QOI_OP_RGBA, px_curr.r, px_curr.g, px_curr.b, px_curr.a])

/-- The full `qoi_encode` main loop over the pixel sequence, returning
the emitted chunk bytes and the final state.  The `last` flag of a step
is true exactly on the final pixel (`px_pos == px_end`). -/
def encLoop (s : EncSt) : List Pixel → List Nat × EncSt
  | [] => ([], s)
  | px :: rest =>
    let step := encStep rest.isEmpty px s
    let next := encLoop step.1 rest
    (step.2 ++ next.1, next.2)

/-- The argument-validity test of `qoi_encode` (qoi.c lines 55-60),
restricted to the descriptor (the three pointer null-checks have no
counterpart for by-value Lean arguments).  Note the short-circuit: the
division `QOI_MAXIMUM_PIXELS / width` is only reached for nonzero width. -/
def encBadDesc (desc : qoi_desc) : Prop :=
  desc.width = 0 ∨ desc.height = 0 ∨ (desc.channels ≠ 3 ∧ desc.channels ≠ 4) ∨
    desc.colorspace > 1 ∨ desc.height ≥ QOI_MAXIMUM_PIXELS / desc.width

instance (desc : qoi_desc) : Decidable (encBadDesc desc) := by
  unfold encBadDesc; infer_instance

/-- `qoi_encode` from qoi.c: `none` models the `NULL` return with
`errno = EINVAL` (the `malloc` failure path is not modelled: allocation
always succeeds in the embedding).  On success the returned byte list is
the encoded stream; the C `*size` output equals its length. -/
def qoi_encode (data : List Nat) (desc : qoi_desc) : Option (List Nat) :=
  if encBadDesc desc then
    none
  else
    some (qoiHeader desc ++ (encLoop encInit (toPixels desc.channels data)).1 ++ qoi_padding)

/-- The final encoder loop state of a `qoi_encode` call (the values of
`px_prev`, `mem`, `run` after qoi.c line 194). -/
def qoi_encode_final (data : List Nat) (desc : qoi_desc) : EncSt :=
  (encLoop encInit (toPixels desc.channels data)).2

/-- The decoder loop state of `qoi_decode`: current pixel, 64-slot hash
table, pending run counter and the read cursor `idx` into the input. -/
structure DecSt where
  px_curr : Pixel
  mem : Nat → Pixel
  run : Nat
  idx : Nat

/-- The initial decoder loop state: `px_curr = (0,0,0,255)`, zeroed hash
table, `run = 0`, and the cursor already advanced past the 14-byte header
(qoi.c lines 248-285). -/
def decInit : DecSt := ⟨pixInit, fun _ => pix0, 0, QOI_HEADER_SIZE⟩

/-- One iteration of the `qoi_decode` main loop (qoi.c lines 287-331).
Returns the updated state and the pixel written out at this position.
The C tag tests `(byte1 & 0xc0) == 0x80/0x40/0x00/0xc0` are `byte1 / 64 =
2/1/0/3` for a byte value; `0xfe`/`0xff` are handled before the tag tests
so the final branch is exactly `QOI_OP_RUN`.  Channel updates `+=` with
`int` biases store back into `uint8_t`, i.e. add modulo 256 (the negative
biases -2, -8-32+... appear as their positive residues 254, 216, 224).
After any opcode the table is updated unconditionally (qoi.c line 320). -/
def decStep (bytes : List Nat) (px_chunks : Nat) (s : DecSt) : DecSt × Pixel :=
  if s.run > 0 then
    (⟨s.px_curr, s.mem, s.run - 1, s.idx⟩, s.px_curr)
  else if s.idx < px_chunks then
    let byte1 := readByte bytes s.idx
    let t : Pixel × Nat × Nat :=
      if byte1 = QOI_OP_RGBA then
        (⟨readByte bytes (s.idx + 1), readByte bytes (s.idx + 2),
          readByte bytes (s.idx + 3), readByte bytes (s.idx + 4)⟩, 0, s.idx + 5)
      else if byte1 = QOI_OP_RGB then
        (⟨readByte bytes (s.idx + 1), readByte bytes (s.idx + 2),
          readByte bytes (s.idx + 3), s.px_curr.a⟩, 0, s.idx + 4)
      else if byte1 / 64 = 2 then
        -- QOI_OP_LUMA: dg = (byte1 & 0x3f) - 32, payload nibbles biased by 8
        let byte2 := readByte bytes (s.idx + 1)
        (⟨(s.px_curr.r + byte1 % 64 + byte2 / 16 % 16 + 216) % 256,
          (s.px_curr.g + byte1 % 64 + 224) % 256,
          (s.px_curr.b + byte1 % 64 + byte2 % 16 + 216) % 256,
          s.px_curr.a⟩, 0, s.idx + 2)
      else if byte1 / 64 = 1 then
        -- QOI_OP_DIFF: two-bit channel diffs biased by 2
        (⟨(s.px_curr.r + byte1 / 16 % 4 + 254) % 256,
          (s.px_curr.g + byte1 / 4 % 4 + 254) % 256,
          (s.px_curr.b + byte1 % 4 + 254) % 256,
          s.px_curr.a⟩, 0, s.idx + 1)
      else if byte1 / 64 = 0 then
        -- QOI_OP_INDEX: the whole byte is the slot index
        (s.mem byte1, 0, s.idx + 1)
      else
        -- QOI_OP_RUN
        (s.px_curr, byte1 % 64, s.idx + 1)
    (⟨t.1, Function.update s.mem (qoi_hash t.1) t.1, t.2.1, t.2.2⟩, t.1)
  else
    (s, s.px_curr)

/-- The full `qoi_decode` main loop: `n` is the number of output pixel
positions (the C loop steps `px_pos` by `channels` up to `width * height *
channels`, i.e. `width * height` iterations).  Returns the produced
pixels and the final state. -/
def decLoop (bytes : List Nat) (px_chunks : Nat) : Nat → DecSt → List Pixel × DecSt
  | 0, s => ([], s)
  | n + 1, s =>
    let step := decStep bytes px_chunks s
    let next := decLoop bytes px_chunks n step.1
    (step.2 :: next.1, next.2)

/-- The argument test of `qoi_decode` run before any buffer access
(qoi.c lines 226-231), restricted to the by-value arguments. -/
def decBadArgs (size : Nat) (channels : Nat) : Prop :=
  (channels ≠ 0 ∧ channels ≠ 3 ∧ channels ≠ 4) ∨ size < QOI_HEADER_SIZE + 8

instance (size channels : Nat) : Decidable (decBadArgs size channels) := by
  unfold decBadArgs; infer_instance

/-- The descriptor populated from the header bytes (qoi.c lines 252-255). -/
def parseDesc (bytes : List Nat) : qoi_desc :=
  ⟨read_32 bytes 4, read_32 bytes 8, readByte bytes 12, readByte bytes 13⟩

/-- The header-validation test of `qoi_decode` (qoi.c lines 257-259). -/
def decBadHeader (bytes : List Nat) : Prop :=
  (parseDesc bytes).width = 0 ∨ (parseDesc bytes).height = 0 ∨
    (parseDesc bytes).channels < 3 ∨ (parseDesc bytes).channels > 4 ∨
    (parseDesc bytes).colorspace > 1 ∨ read_32 bytes 0 ≠ QOI_MAGIC ∨
    (parseDesc bytes).height ≥ QOI_MAXIMUM_PIXELS / (parseDesc bytes).width

instance (bytes : List Nat) : Decidable (decBadHeader bytes) := by
  unfold decBadHeader; infer_instance

/-- `qoi_decode` from qoi.c.  The pair models the `void *` return (`none`
is the `NULL`/`EINVAL` failure) together with the caller-supplied
descriptor after the call: the C code writes the parsed header fields
into `*desc` before validating them, so on a header-validation failure
the descriptor already holds the parsed values, while the two argument
tests fire before any write to it.  The `malloc` failure path is not
modelled. -/
def qoi_decode (bytes : List Nat) (size : Nat) (desc0 : qoi_desc) (channels : Nat) :
    Option (List Nat) × qoi_desc :=
  if decBadArgs size channels then
    (none, desc0)
  else if decBadHeader bytes then
    (none, parseDesc bytes)
  else
    let desc := parseDesc bytes
    let ch := if channels = 0 then desc.channels else channels
    let px_chunks := size - 8
    (some (fromPixels ch (decLoop bytes px_chunks (desc.width * desc.height) decInit).1),
      desc)

/-- The final decoder loop state of a successful `qoi_decode` call (the
values of `px_curr`, `mem`, `run`, `idx` after qoi.c line 331); for
gate-rejected inputs it is the initial state, unused. -/
def qoi_decode_final (bytes : List Nat) (size : Nat) (channels : Nat) : DecSt :=
  if decBadArgs size channels then decInit
  else if decBadHeader bytes then decInit
  else
    (decLoop bytes (size - 8)
      ((parseDesc bytes).width * (parseDesc bytes).height) decInit).2

/-- The input indices read by one `qoi_decode` loop iteration, mirroring
the control flow of `decStep`: one opcode byte, plus 4/3/1 payload bytes
for RGBA/RGB/LUMA. -/
def decStepReads (bytes : List Nat) (px_chunks : Nat) (s : DecSt) : List Nat :=
  if s.run > 0 then []
  else if s.idx < px_chunks then
    let byte1 := readByte bytes s.idx
    if byte1 = QOI_OP_RGBA then [s.idx, s.idx + 1, s.idx + 2, s.idx + 3, s.idx + 4]
    else if byte1 = QOI_OP_RGB then [s.idx, s.idx + 1, s.idx + 2, s.idx + 3]
    else if byte1 / 64 = 2 then [s.idx, s.idx + 1]
    else [s.idx]
  else []

/-- The input indices read by the whole `qoi_decode` main loop. -/
def decLoopReads (bytes : List Nat) (px_chunks : Nat) : Nat → DecSt → List Nat
  | 0, _ => []
  | n + 1, s =>
    decStepReads bytes px_chunks s ++
      decLoopReads bytes px_chunks n (decStep bytes px_chunks s).1

/-- Every input index read by a `qoi_decode` call: nothing when the
argument test fails; the 14 header indices (qoi.c lines 251-255), plus,
when the header validates, the main-loop reads. -/
def qoi_decode_reads (bytes : List Nat) (size : Nat) (channels : Nat) : List Nat :=
  if decBadArgs size channels then []
  else
    [0, 1, 2, 3, 4, 5, 6, 7, 8, 9, 10, 11, 12, 13] ++
      (if decBadHeader bytes then []
       else
         decLoopReads bytes (size - 8)
           ((parseDesc bytes).width * (parseDesc bytes).height) decInit)

/-! ## Invariants coupling encoder and decoder -/

/-- All four channels of a pixel are byte values. -/
def ValidPixel (p : Pixel) : Prop := p.r < 256 ∧ p.g < 256 ∧ p.b < 256 ∧ p.a < 256

/-- Relation between the encoder's and the decoder's hash tables while
both process the same pixel sequence.  They are equal except that the
decoder — whose unconditional table write (qoi.c line 320) also fires on
RUN opcodes — may already hold the initial pixel `(0,0,0,255)` at its
slot `qoi_hash (0,0,0,255) = 53` while the encoder still has the zeroed
entry there (this happens when the image starts with a run of the
initial pixel, which the encoder emits without ever touching its table). -/
def MemRel (me md : Nat → Pixel) : Prop :=
  md = me ∨ (me 53 = pix0 ∧ md = Function.update me 53 pixInit)

/-- Invariant of the encoder state: the previous pixel is present in the
encoder's table at its hash slot, unless it is the never-yet-encoded
initial pixel with its slot 53 still zeroed. -/
def PrevOk (e : EncSt) : Prop :=
  e.mem (qoi_hash e.px_prev) = e.px_prev ∨ (e.px_prev = pixInit ∧ e.mem 53 = pix0)

theorem qoi_hash_lt (p : Pixel) : qoi_hash p < 64 :=
  Nat.mod_lt _ (by norm_num)

theorem qoi_hash_pixInit : qoi_hash pixInit = 53 := by decide

theorem qoi_hash_pix0 : qoi_hash pix0 = 0 := by decide

theorem MemRel.refl (me : Nat → Pixel) : MemRel me me := Or.inl rfl

/-- On every slot an encoder-table hit is also a decoder-table hit: the
possible extra decoder entry sits at slot 53 and stores `pixInit`,
whose hash is 53, while a hit pixel at slot 53 would have to be the
zero pixel, whose hash is 0. -/
theorem MemRel.lookup {me md : Nat → Pixel} (h : MemRel me md) {p : Pixel}
    (hhit : me (qoi_hash p) = p) : md (qoi_hash p) = p := by
  rcases h with rfl | ⟨h53, rfl⟩
  · exact hhit
  · by_cases hc : qoi_hash p = 53
    · exfalso
      rw [hc] at hhit
      rw [h53] at hhit
      have : qoi_hash p = 0 := by rw [← hhit]; exact qoi_hash_pix0
      omega
    · rw [Function.update_noteq hc]
      exact hhit

/-- Writing back a value already present leaves a table unchanged. -/
theorem update_self_of_lookup {f : Nat → Pixel} {i : Nat} {v : Pixel} (h : f i = v) :
    Function.update f i v = f := by
  rw [← h]
  exact Function.update_eq_self i f

/-- A decoder-side write of the current previous pixel into its hash
slot (the write the decoder performs on a RUN opcode) preserves the
table relation, thanks to `PrevOk`. -/
theorem MemRel.runwrite {e : EncSt} {md : Nat → Pixel} (h : MemRel e.mem md)
    (hp : PrevOk e) :
    MemRel e.mem (Function.update md (qoi_hash e.px_prev) e.px_prev) := by
  rcases hp with hhit | ⟨hu, h53⟩
  · have hmd : md (qoi_hash e.px_prev) = e.px_prev := h.lookup hhit
    rcases h with rfl | ⟨h53, rfl⟩
    · left
      exact update_self_of_lookup hmd
    · right
      exact ⟨h53, update_self_of_lookup hmd⟩
  · rcases h with rfl | ⟨h53', rfl⟩
    · right
      refine ⟨h53, ?_⟩
      rw [hu, qoi_hash_pixInit]
    · right
      refine ⟨h53', ?_⟩
      rw [hu, qoi_hash_pixInit, Function.update_idem]

/-- Writing the same new pixel into both tables at its hash slot
preserves the table relation. -/
theorem MemRel.insert {me md : Nat → Pixel} (h : MemRel me md) (p : Pixel) :
    MemRel (Function.update me (qoi_hash p) p) (Function.update md (qoi_hash p) p) := by
  rcases h with rfl | ⟨h53, rfl⟩
  · left; rfl
  · by_cases hc : qoi_hash p = 53
    · left
      rw [hc, Function.update_idem]
    · right
      refine ⟨?_, ?_⟩
      · rw [Function.update_noteq (Ne.symm hc)]
        exact h53
      · rw [Function.update_comm hc]

/-! ## Byte-access and loop-composition lemmas -/

theorem readByte_cons_zero (b : Nat) (l : List Nat) : readByte (b :: l) 0 = b % 256 := rfl

theorem readByte_cons_succ (b : Nat) (l : List Nat) (k : Nat) :
    readByte (b :: l) (k + 1) = readByte l k := rfl

theorem readByte_append (P L : List Nat) (k : Nat) :
    readByte (P ++ L) (P.length + k) = readByte L k := by
  unfold readByte
  congr 1
  rw [List.getD_append_right _ _ _ _ (Nat.le_add_right _ _)]
  congr 1
  omega

theorem readByte_append_zero (P L : List Nat) : readByte (P ++ L) P.length = readByte L 0 := by
  have := readByte_append P L 0
  simpa using this

theorem decLoop_zero (bytes : List Nat) (ce : Nat) (s : DecSt) :
    decLoop bytes ce 0 s = ([], s) := rfl

theorem decLoop_succ (bytes : List Nat) (ce n : Nat) (s : DecSt) :
    decLoop bytes ce (n + 1) s =
      ((decStep bytes ce s).2 :: (decLoop bytes ce n (decStep bytes ce s).1).1,
        (decLoop bytes ce n (decStep bytes ce s).1).2) := rfl

theorem decLoop_add (bytes : List Nat) (ce m n : Nat) (s : DecSt) :
    decLoop bytes ce (m + n) s =
      ((decLoop bytes ce m s).1 ++ (decLoop bytes ce n (decLoop bytes ce m s).2).1,
        (decLoop bytes ce n (decLoop bytes ce m s).2).2) := by
  induction m generalizing s with
  | zero => simp [decLoop_zero]
  | succ k ih =>
    have harith : k + 1 + n = (k + n) + 1 := by omega
    rw [harith, decLoop_succ, decLoop_succ, ih]
    simp

/-- Exhausted-opcode behaviour (qoi.c line 291 guard false with no
pending run): every remaining position is filled with the current pixel
and the state does not change. -/
theorem decLoop_exhausted (bytes : List Nat) (ce n : Nat) (s : DecSt)
    (h1 : s.run = 0) (h2 : ce ≤ s.idx) :
    decLoop bytes ce n s = (List.replicate n s.px_curr, s) := by
  induction n with
  | zero => simp [decLoop_zero]
  | succ k ih =>
    have hstep : decStep bytes ce s = (s, s.px_curr) := by
      unfold decStep
      rw [if_neg (by omega), if_neg (by omega)]
    rw [decLoop_succ, hstep]
    simp [ih, List.replicate_succ]

/-- Replay of a pending run (qoi.c lines 289-290): with `run = r` the
next `r` iterations emit the current pixel and only decrement the
counter. -/
theorem decLoop_replay (bytes : List Nat) (ce : Nat) (r n : Nat) (s : DecSt)
    (h : s.run = r) :
    decLoop bytes ce (r + n) s =
      (List.replicate r s.px_curr ++
        (decLoop bytes ce n ⟨s.px_curr, s.mem, 0, s.idx⟩).1,
        (decLoop bytes ce n ⟨s.px_curr, s.mem, 0, s.idx⟩).2) := by
  induction r generalizing s with
  | zero =>
    obtain ⟨c, m, r, i⟩ := s
    simp at h
    subst h
    simp
  | succ k ih =>
    have hstep : decStep bytes ce s = (⟨s.px_curr, s.mem, k, s.idx⟩, s.px_curr) := by
      unfold decStep
      rw [if_pos (by omega), h]
      simp
    have harith : k + 1 + n = (k + n) + 1 := by omega
    rw [harith, decLoop_succ, hstep]
    rw [ih _ rfl]
    simp [List.replicate_succ]

theorem decLoop_one (bytes : List Nat) (ce : Nat) (s : DecSt) :
    decLoop bytes ce 1 s = ([(decStep bytes ce s).2], (decStep bytes ce s).1) := by
  rw [decLoop_succ]
  simp [decLoop_zero]

/-! ## One-step decoder characterizations, per opcode class -/

theorem decStep_op_rgba (bytes : List Nat) (ce : Nat) (s : DecSt) (r g b a : Nat)
    (h0 : s.run = 0) (hlt : s.idx < ce) (hb : readByte bytes s.idx = QOI_OP_RGBA)
    (hr : readByte bytes (s.idx + 1) = r) (hg : readByte bytes (s.idx + 2) = g)
    (hb3 : readByte bytes (s.idx + 3) = b) (ha : readByte bytes (s.idx + 4) = a) :
    decStep bytes ce s =
      (⟨⟨r, g, b, a⟩, Function.update s.mem (qoi_hash ⟨r, g, b, a⟩) ⟨r, g, b, a⟩,
        0, s.idx + 5⟩, ⟨r, g, b, a⟩) := by
  unfold decStep
  rw [if_neg (by omega), if_pos hlt]
  simp only [hb, hr, hg, hb3, ha]
  simp

theorem decStep_op_rgb (bytes : List Nat) (ce : Nat) (s : DecSt) (r g b : Nat)
    (h0 : s.run = 0) (hlt : s.idx < ce) (hb : readByte bytes s.idx = QOI_OP_RGB)
    (hr : readByte bytes (s.idx + 1) = r) (hg : readByte bytes (s.idx + 2) = g)
    (hb3 : readByte bytes (s.idx + 3) = b) :
    decStep bytes ce s =
      (⟨⟨r, g, b, s.px_curr.a⟩,
        Function.update s.mem (qoi_hash ⟨r, g, b, s.px_curr.a⟩) ⟨r, g, b, s.px_curr.a⟩,
        0, s.idx + 4⟩, ⟨r, g, b, s.px_curr.a⟩) := by
  unfold decStep
  rw [if_neg (by omega), if_pos hlt]
  simp only [hb, hr, hg, hb3]
  rw [if_neg (by unfold QOI_OP_RGBA QOI_OP_RGB; omega)]
  simp

theorem decStep_op_luma (bytes : List Nat) (ce : Nat) (s : DecSt) (b1 b2 : Nat)
    (h0 : s.run = 0) (hlt : s.idx < ce) (hb1 : readByte bytes s.idx = b1)
    (hb2 : readByte bytes (s.idx + 1) = b2) (ht : b1 / 64 = 2) :
    decStep bytes ce s =
      (⟨⟨(s.px_curr.r + b1 % 64 + b2 / 16 % 16 + 216) % 256,
         (s.px_curr.g + b1 % 64 + 224) % 256,
         (s.px_curr.b + b1 % 64 + b2 % 16 + 216) % 256, s.px_curr.a⟩,
        Function.update s.mem
          (qoi_hash ⟨(s.px_curr.r + b1 % 64 + b2 / 16 % 16 + 216) % 256,
            (s.px_curr.g + b1 % 64 + 224) % 256,
            (s.px_curr.b + b1 % 64 + b2 % 16 + 216) % 256, s.px_curr.a⟩)
          ⟨(s.px_curr.r + b1 % 64 + b2 / 16 % 16 + 216) % 256,
            (s.px_curr.g + b1 % 64 + 224) % 256,
            (s.px_curr.b + b1 % 64 + b2 % 16 + 216) % 256, s.px_curr.a⟩,
        0, s.idx + 2⟩,
       ⟨(s.px_curr.r + b1 % 64 + b2 / 16 % 16 + 216) % 256,
        (s.px_curr.g + b1 % 64 + 224) % 256,
        (s.px_curr.b + b1 % 64 + b2 % 16 + 216) % 256, s.px_curr.a⟩) := by
  unfold decStep
  rw [if_neg (by omega), if_pos hlt]
  simp only [hb1, hb2]
  rw [if_neg (by unfold QOI_OP_RGBA; omega), if_neg (by unfold QOI_OP_RGB; omega), if_pos ht]

theorem decStep_op_diff (bytes : List Nat) (ce : Nat) (s : DecSt) (b1 : Nat)
    (h0 : s.run = 0) (hlt : s.idx < ce) (hb1 : readByte bytes s.idx = b1)
    (ht : b1 / 64 = 1) :
    decStep bytes ce s =
      (⟨⟨(s.px_curr.r + b1 / 16 % 4 + 254) % 256,
         (s.px_curr.g + b1 / 4 % 4 + 254) % 256,
         (s.px_curr.b + b1 % 4 + 254) % 256, s.px_curr.a⟩,
        Function.update s.mem
          (qoi_hash ⟨(s.px_curr.r + b1 / 16 % 4 + 254) % 256,
            (s.px_curr.g + b1 / 4 % 4 + 254) % 256,
            (s.px_curr.b + b1 % 4 + 254) % 256, s.px_curr.a⟩)
          ⟨(s.px_curr.r + b1 / 16 % 4 + 254) % 256,
            (s.px_curr.g + b1 / 4 % 4 + 254) % 256,
            (s.px_curr.b + b1 % 4 + 254) % 256, s.px_curr.a⟩,
        0, s.idx + 1⟩,
       ⟨(s.px_curr.r + b1 / 16 % 4 + 254) % 256,
        (s.px_curr.g + b1 / 4 % 4 + 254) % 256,
        (s.px_curr.b + b1 % 4 + 254) % 256, s.px_curr.a⟩) := by
  unfold decStep
  rw [if_neg (by omega), if_pos hlt]
  simp only [hb1]
  rw [if_neg (by unfold QOI_OP_RGBA; omega), if_neg (by unfold QOI_OP_RGB; omega),
    if_neg (by omega), if_pos ht]

theorem decStep_op_index (bytes : List Nat) (ce : Nat) (s : DecSt) (b1 : Nat)
    (h0 : s.run = 0) (hlt : s.idx < ce) (hb1 : readByte bytes s.idx = b1)
    (ht : b1 / 64 = 0) :
    decStep bytes ce s =
      (⟨s.mem b1, Function.update s.mem (qoi_hash (s.mem b1)) (s.mem b1),
        0, s.idx + 1⟩, s.mem b1) := by
  unfold decStep
  rw [if_neg (by omega), if_pos hlt]
  simp only [hb1]
  rw [if_neg (by unfold QOI_OP_RGBA; omega), if_neg (by unfold QOI_OP_RGB; omega),
    if_neg (by omega), if_neg (by omega), if_pos ht]

theorem decStep_op_run (bytes : List Nat) (ce : Nat) (s : DecSt) (b1 : Nat)
    (h0 : s.run = 0) (hlt : s.idx < ce) (hb1 : readByte bytes s.idx = b1)
    (ht : b1 / 64 = 3) (hne1 : b1 ≠ QOI_OP_RGBA) (hne2 : b1 ≠ QOI_OP_RGB) :
    decStep bytes ce s =
      (⟨s.px_curr, Function.update s.mem (qoi_hash s.px_curr) s.px_curr,
        b1 % 64, s.idx + 1⟩, s.px_curr) := by
  unfold decStep
  rw [if_neg (by omega), if_pos hlt]
  simp only [hb1]
  rw [if_neg hne1, if_neg hne2, if_neg (by omega), if_neg (by omega), if_neg (by omega)]

/-- Consuming one RUN opcode byte of value `0xc0 + (r-1)` produces `r`
copies of the current pixel (one on the opcode itself, `r - 1` by
replay), performs the decoder's unconditional table write, and advances
the cursor by one. -/
theorem flush_block (bytes : List Nat) (ce : Nat) (curr : Pixel) (md : Nat → Pixel)
    (r idx : Nat) (hr : 0 < r) (hr62 : r ≤ 62) (hlt : idx < ce)
    (hb : readByte bytes idx = QOI_OP_RUN + (r - 1)) :
    decLoop bytes ce r ⟨curr, md, 0, idx⟩ =
      (List.replicate r curr,
        ⟨curr, Function.update md (qoi_hash curr) curr, 0, idx + 1⟩) := by
  have hstep := decStep_op_run bytes ce ⟨curr, md, 0, idx⟩ (QOI_OP_RUN + (r - 1)) rfl hlt hb
    (by unfold QOI_OP_RUN; omega) (by unfold QOI_OP_RUN QOI_OP_RGBA; omega)
    (by unfold QOI_OP_RUN QOI_OP_RGB; omega)
  have hmod : (QOI_OP_RUN + (r - 1)) % 64 = r - 1 := by unfold QOI_OP_RUN; omega
  have hsplit : r = 1 + (r - 1) := by omega
  rw [hsplit, decLoop_add, decLoop_one, hstep]
  simp only [hmod]
  have hrep := decLoop_replay bytes ce (r - 1) 0
    ⟨curr, Function.update md (qoi_hash curr) curr, r - 1, idx + 1⟩ rfl
  rw [Nat.add_zero] at hrep
  simp only [hrep, decLoop_zero]
  simp [List.replicate_add]

/-! ## Arithmetic facts about the DIFF and LUMA opcode bytes -/

theorem diffByte_spec (pc pp : Pixel) (h : DiffOk pc pp) :
    diffByte pc pp < 256 ∧ diffByte pc pp / 64 = 1 ∧
      ((diffByte pc pp / 16 % 4 : Nat) : Int) = drOf pc pp + 2 ∧
      ((diffByte pc pp / 4 % 4 : Nat) : Int) = dgOf pc pp + 2 ∧
      ((diffByte pc pp % 4 : Nat) : Int) = dbOf pc pp + 2 := by
  obtain ⟨⟨h1, h2⟩, ⟨h3, h4⟩, h5, h6⟩ := h
  unfold diffByte QOI_OP_DIFF
  omega

theorem lumaByte1_spec (pc pp : Pixel) (h : LumaOk pc pp) :
    lumaByte1 pc pp < 256 ∧ lumaByte1 pc pp / 64 = 2 ∧
      ((lumaByte1 pc pp % 64 : Nat) : Int) = dgOf pc pp + 32 := by
  obtain ⟨⟨h1, h2⟩, ⟨h3, h4⟩, h5, h6⟩ := h
  unfold lumaByte1 QOI_OP_LUMA
  omega

theorem lumaByte2_spec (pc pp : Pixel) (h : LumaOk pc pp) :
    lumaByte2 pc pp < 256 ∧
      ((lumaByte2 pc pp / 16 % 16 : Nat) : Int) = wrap8 (drOf pc pp - dgOf pc pp) + 8 ∧
      ((lumaByte2 pc pp % 16 : Nat) : Int) = wrap8 (dbOf pc pp - dgOf pc pp) + 8 := by
  obtain ⟨⟨h1, h2⟩, ⟨h3, h4⟩, h5, h6⟩ := h
  unfold lumaByte2
  omega

/-- The decoder's DIFF channel update inverts the encoder's wrapped
channel difference. -/
theorem diff_apply (x y : Nat) (d : Int) (t : Nat) (hx : x < 256)
    (hd : d = wrap8 ((x : Int) - (y : Int))) (ht : (t : Int) = d + 2) :
    (y + t + 254) % 256 = x := by
  unfold wrap8 at hd
  omega

/-- The decoder's LUMA red/blue channel update inverts the encoder's
`dg`-relative wrapped difference. -/
theorem luma_apply (x y : Nat) (d dg : Int) (t1 t2 : Nat) (hx : x < 256)
    (hd : d = wrap8 ((x : Int) - (y : Int)))
    (h1 : (t1 : Int) = dg + 32)
    (h2 : (t2 : Int) = wrap8 (d - dg) + 8) :
    (y + t1 + t2 + 216) % 256 = x := by
  unfold wrap8 at hd h2
  omega

/-- The decoder's LUMA green channel update inverts the encoder's
wrapped green difference. -/
theorem luma_apply_g (x y : Nat) (d : Int) (t1 : Nat) (hx : x < 256)
    (hd : d = wrap8 ((x : Int) - (y : Int))) (h1 : (t1 : Int) = d + 32) :
    (y + t1 + 224) % 256 = x := by
  unfold wrap8 at hd
  omega

/-! ## One-step encoder characterizations, per branch -/

theorem encStep_run_cont (last : Bool) (p : Pixel) (e : EncSt)
    (hp : p = e.px_prev) (hc : ¬(e.run + 1 = QOI_MAXIMUM_RUN ∨ last = true)) :
    encStep last p e = (⟨p, e.mem, e.run + 1⟩, []) := by
  simp only [encStep]
  rw [if_pos hp, if_neg hc]

theorem encStep_run_flush (last : Bool) (p : Pixel) (e : EncSt)
    (hp : p = e.px_prev) (hc : e.run + 1 = QOI_MAXIMUM_RUN ∨ last = true) :
    encStep last p e = (⟨p, e.mem, 0⟩, [QOI_OP_RUN + e.run]) := by
  simp only [encStep]
  rw [if_pos hp, if_pos hc]
  simp

theorem encStep_index (last : Bool) (p : Pixel) (e : EncSt)
    (hp : ¬ p = e.px_prev) (hhit : p = e.mem (qoi_hash p)) :
    encStep last p e =
      (⟨p, e.mem, 0⟩,
        (if e.run > 0 then [QOI_OP_RUN + (e.run - 1)] else []) ++
          [QOI_OP_INDEX + qoi_hash p]) := by
  simp only [encStep]
  rw [if_neg hp, if_pos hhit]

theorem encStep_diff (last : Bool) (p : Pixel) (e : EncSt)
    (hp : ¬ p = e.px_prev) (hmiss : ¬ p = e.mem (qoi_hash p))
    (ha : p.a = e.px_prev.a) (hd : DiffOk p e.px_prev) :
    encStep last p e =
      (⟨p, Function.update e.mem (qoi_hash p) p, 0⟩,
        (if e.run > 0 then [QOI_OP_RUN + (e.run - 1)] else []) ++
          [diffByte p e.px_prev]) := by
  simp only [encStep]
  rw [if_neg hp, if_neg hmiss, if_pos ha, if_pos hd]

theorem encStep_luma (last : Bool) (p : Pixel) (e : EncSt)
    (hp : ¬ p = e.px_prev) (hmiss : ¬ p = e.mem (qoi_hash p))
    (ha : p.a = e.px_prev.a) (hnd : ¬ DiffOk p e.px_prev) (hl : LumaOk p e.px_prev) :
    encStep last p e =
      (⟨p, Function.update e.mem (qoi_hash p) p, 0⟩,
        (if e.run > 0 then [QOI_OP_RUN + (e.run - 1)] else []) ++
          [lumaByte1 p e.px_prev, lumaByte2 p e.px_prev]) := by
  simp only [encStep]
  rw [if_neg hp, if_neg hmiss, if_pos ha, if_neg hnd, if_pos hl]

theorem encStep_rgb (last : Bool) (p : Pixel) (e : EncSt)
    (hp : ¬ p = e.px_prev) (hmiss : ¬ p = e.mem (qoi_hash p))
    (ha : p.a = e.px_prev.a) (hnd : ¬ DiffOk p e.px_prev) (hnl : ¬ LumaOk p e.px_prev) :
    encStep last p e =
      (⟨p, Function.update e.mem (qoi_hash p) p, 0⟩,
        (if e.run > 0 then [QOI_OP_RUN + (e.run - 1)] else []) ++
          [QOI_OP_RGB, p.r, p.g, p.b]) := by
  simp only [encStep]
  rw [if_neg hp, if_neg hmiss, if_pos ha, if_neg hnd, if_neg hnl]

theorem encStep_rgba (last : Bool) (p : Pixel) (e : EncSt)
    (hp : ¬ p = e.px_prev) (hmiss : ¬ p = e.mem (qoi_hash p))
    (ha : ¬ p.a = e.px_prev.a) :
    encStep last p e =
      (⟨p, Function.update e.mem (qoi_hash p) p, 0⟩,
        (if e.run > 0 then [QOI_OP_RUN + (e.run - 1)] else []) ++
          [QOI_OP_RGBA, p.r, p.g, p.b, p.a]) := by
  simp only [encStep]
  rw [if_neg hp, if_neg hmiss, if_neg ha]

/-- Decoding across a possibly-empty run flush: with a pending encoder
run of length `er` the decoder first consumes the flush byte (if any)
and replays it, producing the `er` owed copies of the previous pixel,
with its table still related to the encoder's. -/
theorem flush_then (pre suffix : List Nat) (ce : Nat) (ep : Pixel)
    (em dm : Nat → Pixel) (er : Nat)
    (hr : er ≤ 61) (hmr : MemRel em dm) (hpo : PrevOk ⟨ep, em, er⟩)
    (hce : pre.length < ce) :
    ∃ md2, MemRel em md2 ∧
      decLoop (pre ++ ((if er > 0 then [QOI_OP_RUN + (er - 1)] else []) ++ suffix)) ce er
          ⟨ep, dm, 0, pre.length⟩
        = (List.replicate er ep,
           ⟨ep, md2, 0, pre.length + (if er > 0 then 1 else 0)⟩) := by
  by_cases he : er > 0
  · refine ⟨Function.update dm (qoi_hash ep) ep, hmr.runwrite hpo, ?_⟩
    have hb : readByte (pre ++ ((if er > 0 then [QOI_OP_RUN + (er - 1)] else []) ++ suffix))
        pre.length = QOI_OP_RUN + (er - 1) := by
      rw [if_pos he, readByte_append_zero]
      show (QOI_OP_RUN + (er - 1)) % 256 = QOI_OP_RUN + (er - 1)
      unfold QOI_OP_RUN
      omega
    have hfb := flush_block
      (pre ++ ((if er > 0 then [QOI_OP_RUN + (er - 1)] else []) ++ suffix)) ce ep dm er
      pre.length he (by omega) hce hb
    rw [hfb, if_pos he]
  · have he0 : er = 0 := by omega
    subst he0
    refine ⟨dm, hmr, ?_⟩
    simp [decLoop_zero]

/-- Component-wise equality of pixels. -/
theorem pixel_ext (q p : Pixel) (h1 : q.r = p.r) (h2 : q.g = p.g) (h3 : q.b = p.b)
    (h4 : q.a = p.a) : q = p := by
  obtain ⟨a, b, c, d⟩ := q
  obtain ⟨a', b', c', d'⟩ := p
  dsimp only at h1 h2 h3 h4
  rw [h1, h2, h3, h4]

/-- Single-pixel simulation: encoding one pixel and decoding the bytes
it emits produce matching results.  With a pending encoder run the
decoder still owes `e.run` copies of the previous pixel; a step that
emits bytes (final state run `0`) delivers them together with the
current pixel, a run-continuation step emits nothing and delivers
nothing. -/
theorem step_sim (last : Bool) (p : Pixel) (e : EncSt) (d : DecSt)
    (pre rest pad : List Nat) (hv : ValidPixel p)
    (hcurr : d.px_curr = e.px_prev) (hrun : d.run = 0) (hidx : d.idx = pre.length)
    (hmr : MemRel e.mem d.mem) (hpo : PrevOk e) (hr : e.run ≤ 61) :
    ∃ d' : DecSt,
      decLoop (pre ++ ((encStep last p e).2 ++ rest) ++ pad)
          (pre.length + (encStep last p e).2.length + rest.length)
          (if (encStep last p e).1.run = 0 then e.run + 1 else 0) d
        = ((if (encStep last p e).1.run = 0
            then List.replicate e.run e.px_prev ++ [p] else []), d') ∧
      d'.px_curr = p ∧ d'.run = 0 ∧
      d'.idx = pre.length + (encStep last p e).2.length ∧
      MemRel (encStep last p e).1.mem d'.mem ∧
      PrevOk (encStep last p e).1 ∧ (encStep last p e).1.run ≤ 61 ∧
      (encStep last p e).1.px_prev = p ∧
      ((encStep last p e).1.run = 0 ∨
        ((encStep last p e).2 = [] ∧ p = e.px_prev ∧ (encStep last p e).1.run = e.run + 1)) := by
  have hd : d = ⟨e.px_prev, d.mem, 0, pre.length⟩ := by
    obtain ⟨a, b, c, i⟩ := d
    dsimp only at hcurr hrun hidx ⊢
    rw [hcurr, hrun, hidx]
  by_cases hp : p = e.px_prev
  · subst hp
    by_cases hc : e.run + 1 = QOI_MAXIMUM_RUN ∨ last = true
    · -- branch: run flush inside the run-continuation (qoi.c lines 129-133)
      rw [encStep_run_flush last e.px_prev e rfl hc, hd]
      dsimp only
      rw [if_pos rfl, if_pos rfl]
      have hb : readByte (pre ++ ([QOI_OP_RUN + e.run] ++ rest) ++ pad) pre.length
          = QOI_OP_RUN + (e.run + 1 - 1) := by
        have hsh : pre ++ ([QOI_OP_RUN + e.run] ++ rest) ++ pad
            = pre ++ ((QOI_OP_RUN + e.run) :: (rest ++ pad)) := by simp
        rw [hsh, readByte_append_zero, readByte_cons_zero]
        unfold QOI_OP_RUN
        omega
      have hfb := flush_block (pre ++ ([QOI_OP_RUN + e.run] ++ rest) ++ pad)
        (pre.length + [QOI_OP_RUN + e.run].length + rest.length)
        e.px_prev d.mem (e.run + 1) pre.length (by omega) (by omega)
        (by show pre.length < pre.length + 1 + rest.length; omega) hb
      rw [hfb]
      refine ⟨⟨e.px_prev, Function.update d.mem (qoi_hash e.px_prev) e.px_prev, 0,
        pre.length + 1⟩, ?_, rfl, rfl, by simp, ?_, hpo, by omega, rfl, Or.inl rfl⟩
      · rw [List.replicate_succ']
      · exact hmr.runwrite hpo
    · -- branch: run continuation without emission (qoi.c lines 126-128)
      rw [encStep_run_cont last e.px_prev e rfl hc, hd]
      dsimp only
      simp only [QOI_MAXIMUM_RUN] at hc
      push_neg at hc
      rw [if_neg (by omega), if_neg (by omega)]
      exact ⟨⟨e.px_prev, d.mem, 0, pre.length⟩, decLoop_zero _ _ _, rfl, rfl, by simp,
        hmr, hpo, by omega, rfl, Or.inr ⟨rfl, rfl, rfl⟩⟩
  · -- a differing pixel: flush, then one of INDEX/DIFF/LUMA/RGB/RGBA
    by_cases hhit : p = e.mem (qoi_hash p)
    · -- QOI_OP_INDEX
      rw [encStep_index last p e hp hhit, hd]
      dsimp only
      rw [if_pos rfl, if_pos rfl]
      have hbytes : pre ++ (((if e.run > 0 then [QOI_OP_RUN + (e.run - 1)] else []) ++
            [QOI_OP_INDEX + qoi_hash p]) ++ rest) ++ pad
          = pre ++ ((if e.run > 0 then [QOI_OP_RUN + (e.run - 1)] else []) ++
            ((QOI_OP_INDEX + qoi_hash p) :: (rest ++ pad))) := by
        simp
      rw [hbytes]
      obtain ⟨md2, hmr2, hflush⟩ := flush_then pre ((QOI_OP_INDEX + qoi_hash p) :: (rest ++ pad))
        (pre.length + ((if e.run > 0 then [QOI_OP_RUN + (e.run - 1)] else []) ++
          [QOI_OP_INDEX + qoi_hash p]).length + rest.length)
        e.px_prev e.mem d.mem e.run hr hmr hpo (by simp; omega)
      rw [decLoop_add _ _ e.run 1, hflush, decLoop_one]
      have hsh2 : pre ++ ((if e.run > 0 then [QOI_OP_RUN + (e.run - 1)] else []) ++
            ((QOI_OP_INDEX + qoi_hash p) :: (rest ++ pad)))
          = (pre ++ (if e.run > 0 then [QOI_OP_RUN + (e.run - 1)] else [])) ++
            ((QOI_OP_INDEX + qoi_hash p) :: (rest ++ pad)) := by
        simp
      have hlen2 : pre.length + (if e.run > 0 then 1 else 0)
          = (pre ++ (if e.run > 0 then [QOI_OP_RUN + (e.run - 1)] else [])).length := by
        by_cases h : e.run > 0 <;> simp [h]
      have hb1 : readByte (pre ++ ((if e.run > 0 then [QOI_OP_RUN + (e.run - 1)] else []) ++
            ((QOI_OP_INDEX + qoi_hash p) :: (rest ++ pad))))
            (pre.length + (if e.run > 0 then 1 else 0)) = QOI_OP_INDEX + qoi_hash p := by
        rw [hsh2, hlen2, readByte_append_zero, readByte_cons_zero]
        have := qoi_hash_lt p
        unfold QOI_OP_INDEX
        omega
      have hstep := decStep_op_index _
        (pre.length + ((if e.run > 0 then [QOI_OP_RUN + (e.run - 1)] else []) ++
          [QOI_OP_INDEX + qoi_hash p]).length + rest.length)
        ⟨e.px_prev, md2, 0, pre.length + (if e.run > 0 then 1 else 0)⟩
        (QOI_OP_INDEX + qoi_hash p) rfl (by simp; by_cases h : e.run > 0 <;> simp [h] <;> omega)
        hb1 (by have := qoi_hash_lt p; unfold QOI_OP_INDEX; omega)
      have hlk : md2 (qoi_hash p) = p := hmr2.lookup hhit.symm
      have hlk' : md2 (QOI_OP_INDEX + qoi_hash p) = p := by
        rw [show QOI_OP_INDEX + qoi_hash p = qoi_hash p from by unfold QOI_OP_INDEX; omega]
        exact hlk
      dsimp only at hstep
      rw [hlk', update_self_of_lookup hlk] at hstep
      dsimp only
      rw [hstep]
      refine ⟨⟨p, md2, 0, pre.length + (if e.run > 0 then 1 else 0) + 1⟩,
        ?_, rfl, rfl, ?_, hmr2, Or.inl hhit.symm, by omega, rfl, Or.inl rfl⟩
      · simp
      · dsimp only
        by_cases h : e.run > 0 <;> simp [h]
    · -- a fresh pixel: table update, then DIFF / LUMA / RGB / RGBA
      by_cases ha : p.a = e.px_prev.a
      · by_cases hdOk : DiffOk p e.px_prev
        · -- QOI_OP_DIFF
          rw [encStep_diff last p e hp hhit ha hdOk, hd]
          dsimp only
          rw [if_pos rfl, if_pos rfl]
          obtain ⟨hB, hTag, hEr, hEg, hEb⟩ := diffByte_spec p e.px_prev hdOk
          have hbytes : pre ++ (((if e.run > 0 then [QOI_OP_RUN + (e.run - 1)] else []) ++
                [diffByte p e.px_prev]) ++ rest) ++ pad
              = pre ++ ((if e.run > 0 then [QOI_OP_RUN + (e.run - 1)] else []) ++
                (diffByte p e.px_prev :: (rest ++ pad))) := by
            simp
          rw [hbytes]
          obtain ⟨md2, hmr2, hflush⟩ := flush_then pre (diffByte p e.px_prev :: (rest ++ pad))
            (pre.length + ((if e.run > 0 then [QOI_OP_RUN + (e.run - 1)] else []) ++
              [diffByte p e.px_prev]).length + rest.length)
            e.px_prev e.mem d.mem e.run hr hmr hpo (by simp; omega)
          rw [decLoop_add _ _ e.run 1, hflush, decLoop_one]
          have hsh2 : pre ++ ((if e.run > 0 then [QOI_OP_RUN + (e.run - 1)] else []) ++
                (diffByte p e.px_prev :: (rest ++ pad)))
              = (pre ++ (if e.run > 0 then [QOI_OP_RUN + (e.run - 1)] else [])) ++
                (diffByte p e.px_prev :: (rest ++ pad)) := by
            simp
          have hlen2 : pre.length + (if e.run > 0 then 1 else 0)
              = (pre ++ (if e.run > 0 then [QOI_OP_RUN + (e.run - 1)] else [])).length := by
            by_cases h : e.run > 0 <;> simp [h]
          have hb1 : readByte (pre ++ ((if e.run > 0 then [QOI_OP_RUN + (e.run - 1)] else []) ++
                (diffByte p e.px_prev :: (rest ++ pad))))
                (pre.length + (if e.run > 0 then 1 else 0)) = diffByte p e.px_prev := by
            rw [hsh2, hlen2, readByte_append_zero, readByte_cons_zero]
            omega
          have hstep := decStep_op_diff _
            (pre.length + ((if e.run > 0 then [QOI_OP_RUN + (e.run - 1)] else []) ++
              [diffByte p e.px_prev]).length + rest.length)
            ⟨e.px_prev, md2, 0, pre.length + (if e.run > 0 then 1 else 0)⟩
            (diffByte p e.px_prev) rfl
            (by simp; by_cases h : e.run > 0 <;> simp [h] <;> omega) hb1 hTag
          dsimp only at hstep
          have hpx : (⟨(e.px_prev.r + diffByte p e.px_prev / 16 % 4 + 254) % 256,
              (e.px_prev.g + diffByte p e.px_prev / 4 % 4 + 254) % 256,
              (e.px_prev.b + diffByte p e.px_prev % 4 + 254) % 256, e.px_prev.a⟩ : Pixel)
              = p := by
            refine pixel_ext _ p ?_ ?_ ?_ ha.symm
            · exact diff_apply p.r e.px_prev.r (drOf p e.px_prev) _ hv.1 rfl hEr
            · exact diff_apply p.g e.px_prev.g (dgOf p e.px_prev) _ hv.2.1 rfl hEg
            · exact diff_apply p.b e.px_prev.b (dbOf p e.px_prev) _ hv.2.2.1 rfl hEb
          rw [hpx] at hstep
          dsimp only
          rw [hstep]
          refine ⟨⟨p, Function.update md2 (qoi_hash p) p, 0,
            pre.length + (if e.run > 0 then 1 else 0) + 1⟩,
            ?_, rfl, rfl, ?_, hmr2.insert p, ?_, by omega, rfl, Or.inl rfl⟩
          · simp
          · dsimp only
            by_cases h : e.run > 0 <;> simp [h]
          · left
            exact Function.update_same _ _ _
        · by_cases hlOk : LumaOk p e.px_prev
          · -- QOI_OP_LUMA
            rw [encStep_luma last p e hp hhit ha hdOk hlOk, hd]
            dsimp only
            rw [if_pos rfl, if_pos rfl]
            obtain ⟨hB1, hTag, hL1⟩ := lumaByte1_spec p e.px_prev hlOk
            obtain ⟨hB2, hL2r, hL2b⟩ := lumaByte2_spec p e.px_prev hlOk
            have hbytes : pre ++ (((if e.run > 0 then [QOI_OP_RUN + (e.run - 1)] else []) ++
                  [lumaByte1 p e.px_prev, lumaByte2 p e.px_prev]) ++ rest) ++ pad
                = pre ++ ((if e.run > 0 then [QOI_OP_RUN + (e.run - 1)] else []) ++
                  (lumaByte1 p e.px_prev :: lumaByte2 p e.px_prev :: (rest ++ pad))) := by
              simp
            rw [hbytes]
            obtain ⟨md2, hmr2, hflush⟩ := flush_then pre
              (lumaByte1 p e.px_prev :: lumaByte2 p e.px_prev :: (rest ++ pad))
              (pre.length + ((if e.run > 0 then [QOI_OP_RUN + (e.run - 1)] else []) ++
                [lumaByte1 p e.px_prev, lumaByte2 p e.px_prev]).length + rest.length)
              e.px_prev e.mem d.mem e.run hr hmr hpo (by simp; omega)
            rw [decLoop_add _ _ e.run 1, hflush, decLoop_one]
            have hsh2 : pre ++ ((if e.run > 0 then [QOI_OP_RUN + (e.run - 1)] else []) ++
                  (lumaByte1 p e.px_prev :: lumaByte2 p e.px_prev :: (rest ++ pad)))
                = (pre ++ (if e.run > 0 then [QOI_OP_RUN + (e.run - 1)] else [])) ++
                  (lumaByte1 p e.px_prev :: lumaByte2 p e.px_prev :: (rest ++ pad)) := by
              simp
            have hlen2 : pre.length + (if e.run > 0 then 1 else 0)
                = (pre ++ (if e.run > 0 then [QOI_OP_RUN + (e.run - 1)] else [])).length := by
              by_cases h : e.run > 0 <;> simp [h]
            have hb1 : readByte (pre ++ ((if e.run > 0 then [QOI_OP_RUN + (e.run - 1)] else []) ++
                  (lumaByte1 p e.px_prev :: lumaByte2 p e.px_prev :: (rest ++ pad))))
                  (pre.length + (if e.run > 0 then 1 else 0)) = lumaByte1 p e.px_prev := by
              rw [hsh2, hlen2, readByte_append_zero, readByte_cons_zero]
              omega
            have hb2 : readByte (pre ++ ((if e.run > 0 then [QOI_OP_RUN + (e.run - 1)] else []) ++
                  (lumaByte1 p e.px_prev :: lumaByte2 p e.px_prev :: (rest ++ pad))))
                  (pre.length + (if e.run > 0 then 1 else 0) + 1) = lumaByte2 p e.px_prev := by
              rw [hsh2, show pre.length + (if e.run > 0 then 1 else 0) + 1
                  = (pre ++ (if e.run > 0 then [QOI_OP_RUN + (e.run - 1)] else [])).length + 1
                  from by rw [hlen2], readByte_append, readByte_cons_succ, readByte_cons_zero]
              omega
            have hstep := decStep_op_luma _
              (pre.length + ((if e.run > 0 then [QOI_OP_RUN + (e.run - 1)] else []) ++
                [lumaByte1 p e.px_prev, lumaByte2 p e.px_prev]).length + rest.length)
              ⟨e.px_prev, md2, 0, pre.length + (if e.run > 0 then 1 else 0)⟩
              (lumaByte1 p e.px_prev) (lumaByte2 p e.px_prev) rfl
              (by simp; by_cases h : e.run > 0 <;> simp [h] <;> omega) hb1 hb2 hTag
            dsimp only at hstep
            have hpx : (⟨(e.px_prev.r + lumaByte1 p e.px_prev % 64 +
                lumaByte2 p e.px_prev / 16 % 16 + 216) % 256,
                (e.px_prev.g + lumaByte1 p e.px_prev % 64 + 224) % 256,
                (e.px_prev.b + lumaByte1 p e.px_prev % 64 +
                  lumaByte2 p e.px_prev % 16 + 216) % 256, e.px_prev.a⟩ : Pixel) = p := by
              refine pixel_ext _ p ?_ ?_ ?_ ha.symm
              · exact luma_apply p.r e.px_prev.r (drOf p e.px_prev) (dgOf p e.px_prev)
                  _ _ hv.1 rfl hL1 hL2r
              · exact luma_apply_g p.g e.px_prev.g (dgOf p e.px_prev) _ hv.2.1 rfl hL1
              · exact luma_apply p.b e.px_prev.b (dbOf p e.px_prev) (dgOf p e.px_prev)
                  _ _ hv.2.2.1 rfl hL1 hL2b
            rw [hpx] at hstep
            dsimp only
            rw [hstep]
            refine ⟨⟨p, Function.update md2 (qoi_hash p) p, 0,
              pre.length + (if e.run > 0 then 1 else 0) + 2⟩,
              ?_, rfl, rfl, ?_, hmr2.insert p, ?_, by omega, rfl, Or.inl rfl⟩
            · simp
            · dsimp only
              by_cases h : e.run > 0 <;> simp [h]
            · left
              exact Function.update_same _ _ _
          · -- QOI_OP_RGB
            rw [encStep_rgb last p e hp hhit ha hdOk hlOk, hd]
            dsimp only
            rw [if_pos rfl, if_pos rfl]
            have hbytes : pre ++ (((if e.run > 0 then [QOI_OP_RUN + (e.run - 1)] else []) ++
                  [QOI_OP_RGB, p.r, p.g, p.b]) ++ rest) ++ pad
                = pre ++ ((if e.run > 0 then [QOI_OP_RUN + (e.run - 1)] else []) ++
                  (QOI_OP_RGB :: p.r :: p.g :: p.b :: (rest ++ pad))) := by
              simp
            rw [hbytes]
            obtain ⟨md2, hmr2, hflush⟩ := flush_then pre
              (QOI_OP_RGB :: p.r :: p.g :: p.b :: (rest ++ pad))
              (pre.length + ((if e.run > 0 then [QOI_OP_RUN + (e.run - 1)] else []) ++
                [QOI_OP_RGB, p.r, p.g, p.b]).length + rest.length)
              e.px_prev e.mem d.mem e.run hr hmr hpo (by simp; omega)
            rw [decLoop_add _ _ e.run 1, hflush, decLoop_one]
            have hsh2 : pre ++ ((if e.run > 0 then [QOI_OP_RUN + (e.run - 1)] else []) ++
                  (QOI_OP_RGB :: p.r :: p.g :: p.b :: (rest ++ pad)))
                = (pre ++ (if e.run > 0 then [QOI_OP_RUN + (e.run - 1)] else [])) ++
                  (QOI_OP_RGB :: p.r :: p.g :: p.b :: (rest ++ pad)) := by
              simp
            have hlen2 : pre.length + (if e.run > 0 then 1 else 0)
                = (pre ++ (if e.run > 0 then [QOI_OP_RUN + (e.run - 1)] else [])).length := by
              by_cases h : e.run > 0 <;> simp [h]
            have hb1 : readByte (pre ++ ((if e.run > 0 then [QOI_OP_RUN + (e.run - 1)] else []) ++
                  (QOI_OP_RGB :: p.r :: p.g :: p.b :: (rest ++ pad))))
                  (pre.length + (if e.run > 0 then 1 else 0)) = QOI_OP_RGB := by
              rw [hsh2, hlen2, readByte_append_zero, readByte_cons_zero]
              unfold QOI_OP_RGB
              omega
            have hrd1 : readByte (pre ++ ((if e.run > 0 then [QOI_OP_RUN + (e.run - 1)] else []) ++
                  (QOI_OP_RGB :: p.r :: p.g :: p.b :: (rest ++ pad))))
                  (pre.length + (if e.run > 0 then 1 else 0) + 1) = p.r := by
              rw [hsh2, show pre.length + (if e.run > 0 then 1 else 0) + 1
                  = (pre ++ (if e.run > 0 then [QOI_OP_RUN + (e.run - 1)] else [])).length + 1
                  from by rw [hlen2], readByte_append, readByte_cons_succ, readByte_cons_zero]
              exact Nat.mod_eq_of_lt hv.1
            have hrd2 : readByte (pre ++ ((if e.run > 0 then [QOI_OP_RUN + (e.run - 1)] else []) ++
                  (QOI_OP_RGB :: p.r :: p.g :: p.b :: (rest ++ pad))))
                  (pre.length + (if e.run > 0 then 1 else 0) + 2) = p.g := by
              rw [hsh2, show pre.length + (if e.run > 0 then 1 else 0) + 2
                  = (pre ++ (if e.run > 0 then [QOI_OP_RUN + (e.run - 1)] else [])).length + 2
                  from by rw [hlen2], readByte_append, readByte_cons_succ, readByte_cons_succ,
                  readByte_cons_zero]
              exact Nat.mod_eq_of_lt hv.2.1
            have hrd3 : readByte (pre ++ ((if e.run > 0 then [QOI_OP_RUN + (e.run - 1)] else []) ++
                  (QOI_OP_RGB :: p.r :: p.g :: p.b :: (rest ++ pad))))
                  (pre.length + (if e.run > 0 then 1 else 0) + 3) = p.b := by
              rw [hsh2, show pre.length + (if e.run > 0 then 1 else 0) + 3
                  = (pre ++ (if e.run > 0 then [QOI_OP_RUN + (e.run - 1)] else [])).length + 3
                  from by rw [hlen2], readByte_append, readByte_cons_succ, readByte_cons_succ,
                  readByte_cons_succ, readByte_cons_zero]
              exact Nat.mod_eq_of_lt hv.2.2.1
            have hstep := decStep_op_rgb _
              (pre.length + ((if e.run > 0 then [QOI_OP_RUN + (e.run - 1)] else []) ++
                [QOI_OP_RGB, p.r, p.g, p.b]).length + rest.length)
              ⟨e.px_prev, md2, 0, pre.length + (if e.run > 0 then 1 else 0)⟩ p.r p.g p.b rfl
              (by simp; by_cases h : e.run > 0 <;> simp [h] <;> omega) hb1 hrd1 hrd2 hrd3
            dsimp only at hstep
            have hpx : (⟨p.r, p.g, p.b, e.px_prev.a⟩ : Pixel) = p :=
              pixel_ext _ p rfl rfl rfl ha.symm
            rw [hpx] at hstep
            dsimp only
            rw [hstep]
            refine ⟨⟨p, Function.update md2 (qoi_hash p) p, 0,
              pre.length + (if e.run > 0 then 1 else 0) + 4⟩,
              ?_, rfl, rfl, ?_, hmr2.insert p, ?_, by omega, rfl, Or.inl rfl⟩
            · simp
            · dsimp only
              by_cases h : e.run > 0 <;> simp [h]
            · left
              exact Function.update_same _ _ _
      · -- QOI_OP_RGBA
        rw [encStep_rgba last p e hp hhit ha, hd]
        dsimp only
        rw [if_pos rfl, if_pos rfl]
        have hbytes : pre ++ (((if e.run > 0 then [QOI_OP_RUN + (e.run - 1)] else []) ++
              [QOI_OP_RGBA, p.r, p.g, p.b, p.a]) ++ rest) ++ pad
            = pre ++ ((if e.run > 0 then [QOI_OP_RUN + (e.run - 1)] else []) ++
              (QOI_OP_RGBA :: p.r :: p.g :: p.b :: p.a :: (rest ++ pad))) := by
          simp
        rw [hbytes]
        obtain ⟨md2, hmr2, hflush⟩ := flush_then pre
          (QOI_OP_RGBA :: p.r :: p.g :: p.b :: p.a :: (rest ++ pad))
          (pre.length + ((if e.run > 0 then [QOI_OP_RUN + (e.run - 1)] else []) ++
            [QOI_OP_RGBA, p.r, p.g, p.b, p.a]).length + rest.length)
          e.px_prev e.mem d.mem e.run hr hmr hpo (by simp; omega)
        rw [decLoop_add _ _ e.run 1, hflush, decLoop_one]
        have hsh2 : pre ++ ((if e.run > 0 then [QOI_OP_RUN + (e.run - 1)] else []) ++
              (QOI_OP_RGBA :: p.r :: p.g :: p.b :: p.a :: (rest ++ pad)))
            = (pre ++ (if e.run > 0 then [QOI_OP_RUN + (e.run - 1)] else [])) ++
              (QOI_OP_RGBA :: p.r :: p.g :: p.b :: p.a :: (rest ++ pad)) := by
          simp
        have hlen2 : pre.length + (if e.run > 0 then 1 else 0)
            = (pre ++ (if e.run > 0 then [QOI_OP_RUN + (e.run - 1)] else [])).length := by
          by_cases h : e.run > 0 <;> simp [h]
        have hb1 : readByte (pre ++ ((if e.run > 0 then [QOI_OP_RUN + (e.run - 1)] else []) ++
              (QOI_OP_RGBA :: p.r :: p.g :: p.b :: p.a :: (rest ++ pad))))
              (pre.length + (if e.run > 0 then 1 else 0)) = QOI_OP_RGBA := by
          rw [hsh2, hlen2, readByte_append_zero, readByte_cons_zero]
          unfold QOI_OP_RGBA
          omega
        have hrd1 : readByte (pre ++ ((if e.run > 0 then [QOI_OP_RUN + (e.run - 1)] else []) ++
              (QOI_OP_RGBA :: p.r :: p.g :: p.b :: p.a :: (rest ++ pad))))
              (pre.length + (if e.run > 0 then 1 else 0) + 1) = p.r := by
          rw [hsh2, show pre.length + (if e.run > 0 then 1 else 0) + 1
              = (pre ++ (if e.run > 0 then [QOI_OP_RUN + (e.run - 1)] else [])).length + 1
              from by rw [hlen2], readByte_append, readByte_cons_succ, readByte_cons_zero]
          exact Nat.mod_eq_of_lt hv.1
        have hrd2 : readByte (pre ++ ((if e.run > 0 then [QOI_OP_RUN + (e.run - 1)] else []) ++
              (QOI_OP_RGBA :: p.r :: p.g :: p.b :: p.a :: (rest ++ pad))))
              (pre.length + (if e.run > 0 then 1 else 0) + 2) = p.g := by
          rw [hsh2, show pre.length + (if e.run > 0 then 1 else 0) + 2
              = (pre ++ (if e.run > 0 then [QOI_OP_RUN + (e.run - 1)] else [])).length + 2
              from by rw [hlen2], readByte_append, readByte_cons_succ, readByte_cons_succ,
              readByte_cons_zero]
          exact Nat.mod_eq_of_lt hv.2.1
        have hrd3 : readByte (pre ++ ((if e.run > 0 then [QOI_OP_RUN + (e.run - 1)] else []) ++
              (QOI_OP_RGBA :: p.r :: p.g :: p.b :: p.a :: (rest ++ pad))))
              (pre.length + (if e.run > 0 then 1 else 0) + 3) = p.b := by
          rw [hsh2, show pre.length + (if e.run > 0 then 1 else 0) + 3
              = (pre ++ (if e.run > 0 then [QOI_OP_RUN + (e.run - 1)] else [])).length + 3
              from by rw [hlen2], readByte_append, readByte_cons_succ, readByte_cons_succ,
              readByte_cons_succ, readByte_cons_zero]
          exact Nat.mod_eq_of_lt hv.2.2.1
        have hrd4 : readByte (pre ++ ((if e.run > 0 then [QOI_OP_RUN + (e.run - 1)] else []) ++
              (QOI_OP_RGBA :: p.r :: p.g :: p.b :: p.a :: (rest ++ pad))))
              (pre.length + (if e.run > 0 then 1 else 0) + 4) = p.a := by
          rw [hsh2, show pre.length + (if e.run > 0 then 1 else 0) + 4
              = (pre ++ (if e.run > 0 then [QOI_OP_RUN + (e.run - 1)] else [])).length + 4
              from by rw [hlen2], readByte_append, readByte_cons_succ, readByte_cons_succ,
              readByte_cons_succ, readByte_cons_succ, readByte_cons_zero]
          exact Nat.mod_eq_of_lt hv.2.2.2
        have hstep := decStep_op_rgba _
          (pre.length + ((if e.run > 0 then [QOI_OP_RUN + (e.run - 1)] else []) ++
            [QOI_OP_RGBA, p.r, p.g, p.b, p.a]).length + rest.length)
          ⟨e.px_prev, md2, 0, pre.length + (if e.run > 0 then 1 else 0)⟩ p.r p.g p.b p.a rfl
          (by simp; by_cases h : e.run > 0 <;> simp [h] <;> omega) hb1 hrd1 hrd2 hrd3 hrd4
        dsimp only at hstep
        have hpx : (⟨p.r, p.g, p.b, p.a⟩ : Pixel) = p := rfl
        rw [hpx] at hstep
        dsimp only
        rw [hstep]
        refine ⟨⟨p, Function.update md2 (qoi_hash p) p, 0,
          pre.length + (if e.run > 0 then 1 else 0) + 5⟩,
          ?_, rfl, rfl, ?_, hmr2.insert p, ?_, by omega, rfl, Or.inl rfl⟩
        · simp
        · dsimp only
          by_cases h : e.run > 0 <;> simp [h]
        · left
          exact Function.update_same _ _ _

/-- Main simulation: decoding the bytes emitted by the encoder main loop
over a pixel sequence reproduces that pixel sequence (together with the
`e.run` pixels still owed from a pending run), and leaves the two hash
tables related. -/
theorem encDecSim (ps : List Pixel) :
    ∀ (e : EncSt) (d : DecSt) (pre pad : List Nat),
      (∀ p ∈ ps, ValidPixel p) →
      d.px_curr = e.px_prev → d.run = 0 → d.idx = pre.length →
      MemRel e.mem d.mem → PrevOk e → e.run ≤ 61 →
      ∃ d' : DecSt,
        decLoop (pre ++ (encLoop e ps).1 ++ pad)
            (pre.length + (encLoop e ps).1.length) (e.run + ps.length) d
          = (List.replicate e.run e.px_prev ++ ps, d') ∧
        d'.px_curr = (encLoop e ps).2.px_prev ∧ d'.run = 0 ∧
        d'.idx = pre.length + (encLoop e ps).1.length ∧
        MemRel (encLoop e ps).2.mem d'.mem := by
  induction ps with
  | nil =>
    intro e d pre pad hv hcurr hrun hidx hmr hpo hr
    simp only [List.length_nil, Nat.add_zero]
    refine ⟨d, ?_, hcurr, hrun, by simp [encLoop, hidx], hmr⟩
    have := decLoop_exhausted (pre ++ (encLoop e []).1 ++ pad)
      (pre.length + (encLoop e []).1.length) e.run d hrun
      (by simp [encLoop]; omega)
    rw [this, hcurr]
    simp
  | cons p rest ih =>
    intro e d pre pad hv hcurr hrun hidx hmr hpo hr
    have hloop : encLoop e (p :: rest) =
        ((encStep rest.isEmpty p e).2 ++ (encLoop (encStep rest.isEmpty p e).1 rest).1,
          (encLoop (encStep rest.isEmpty p e).1 rest).2) := rfl
    rw [hloop]
    dsimp only
    simp only [List.length_cons]
    obtain ⟨d1, hsim, hc1, hr1, hi1, hm1, hpo1, hr61, hppv, hdisj⟩ :=
      step_sim rest.isEmpty p e d pre (encLoop (encStep rest.isEmpty p e).1 rest).1 pad
        (hv p (List.mem_cons_self p rest)) hcurr hrun hidx hmr hpo hr
    have hvrest : ∀ q ∈ rest, ValidPixel q := fun q hq => hv q (List.mem_cons_of_mem p hq)
    by_cases hz : (encStep rest.isEmpty p e).1.run = 0
    · rw [if_pos hz, if_pos hz] at hsim
      rw [show e.run + (rest.length + 1) = (e.run + 1) + rest.length from by omega]
      rw [show pre.length + ((encStep rest.isEmpty p e).2 ++
          (encLoop (encStep rest.isEmpty p e).1 rest).1).length
          = pre.length + (encStep rest.isEmpty p e).2.length +
            (encLoop (encStep rest.isEmpty p e).1 rest).1.length from by
        rw [List.length_append]; omega]
      rw [decLoop_add _ _ (e.run + 1) rest.length, hsim]
      dsimp only
      obtain ⟨d2, htail, hc2, hr2, hi2, hm2⟩ :=
        ih (encStep rest.isEmpty p e).1 d1 (pre ++ (encStep rest.isEmpty p e).2) pad
          hvrest (by rw [hc1, hppv]) hr1 (by rw [hi1, List.length_append]) hm1 hpo1 hr61
      rw [List.length_append] at htail hi2
      simp only [List.append_assoc] at htail
      rw [hz, Nat.zero_add] at htail
      simp only [List.replicate_zero, List.nil_append] at htail
      simp only [List.append_assoc]
      rw [htail]
      refine ⟨d2, ?_, hc2, hr2, hi2, hm2⟩
      simp
    · rcases hdisj with hdisj | ⟨hbs, hpp, hrun1⟩
      · exact absurd hdisj hz
      · have hd1 : d1 = d := by
          rw [if_neg hz, if_neg hz, decLoop_zero] at hsim
          exact (congrArg Prod.snd hsim).symm
        subst hd1
        rw [hbs]
        simp only [List.nil_append]
        rw [show e.run + (rest.length + 1)
            = (encStep rest.isEmpty p e).1.run + rest.length from by rw [hrun1]; omega]
        obtain ⟨d2, htail, hc2, hr2, hi2, hm2⟩ :=
          ih (encStep rest.isEmpty p e).1 d1 pre pad hvrest
            (by rw [hc1, hppv]) hr1 (by rw [hi1, hbs]; simp) hm1 hpo1 hr61
        rw [htail]
        refine ⟨d2, ?_, hc2, hr2, hi2, hm2⟩
        rw [hrun1, hppv, hpp]
        simp [List.replicate_succ']

/-! ## Pixel-buffer parsing and serialization -/

theorem toPixels_spec_four (n : Nat) : ∀ l : List Nat, l.length = 4 * n →
    (toPixels 4 l).length = n ∧ fromPixels 4 (toPixels 4 l) = l ∧
      ((∀ b ∈ l, b < 256) → ∀ p ∈ toPixels 4 l, ValidPixel p) := by
  induction n with
  | zero =>
    intro l h
    have hl : l = [] := List.eq_nil_of_length_eq_zero (by omega)
    subst hl
    simp [toPixels, fromPixels]
  | succ k ih =>
    intro l h
    match l with
    | r :: g :: b :: a :: rest =>
      simp only [List.length_cons] at h
      obtain ⟨hlen, hfr, hval⟩ := ih rest (by omega)
      refine ⟨?_, ?_, ?_⟩
      · simp [toPixels, hlen]
      · simp [toPixels, fromPixels, hfr]
      · intro hb p hp
        simp only [toPixels, List.mem_cons] at hp
        rcases hp with rfl | hp
        · exact ⟨hb r (by simp), hb g (by simp), hb b (by simp), hb a (by simp)⟩
        · exact hval (fun x hx => hb x (by simp [hx])) p hp
    | [] => simp at h
    | [_] => simp at h; omega
    | [_, _] => simp at h; omega
    | [_, _, _] => simp at h; omega

theorem toPixels_spec_three (n : Nat) : ∀ l : List Nat, l.length = 3 * n →
    (toPixels 3 l).length = n ∧ fromPixels 3 (toPixels 3 l) = l ∧
      ((∀ b ∈ l, b < 256) → ∀ p ∈ toPixels 3 l, ValidPixel p) ∧
      (∀ p ∈ toPixels 3 l, p.a = 255) := by
  induction n with
  | zero =>
    intro l h
    have hl : l = [] := List.eq_nil_of_length_eq_zero (by omega)
    subst hl
    simp [toPixels, fromPixels]
  | succ k ih =>
    intro l h
    match l with
    | r :: g :: b :: rest =>
      simp only [List.length_cons] at h
      obtain ⟨hlen, hfr, hval, hal⟩ := ih rest (by omega)
      refine ⟨?_, ?_, ?_, ?_⟩
      · simp [toPixels, hlen]
      · simp [toPixels, fromPixels, hfr]
      · intro hb p hp
        simp only [toPixels, List.mem_cons] at hp
        rcases hp with rfl | hp
        · exact ⟨hb r (by simp), hb g (by simp), hb b (by simp), by norm_num [ValidPixel]⟩
        · exact hval (fun x hx => hb x (by simp [hx])) p hp
      · intro p hp
        simp only [toPixels, List.mem_cons] at hp
        rcases hp with rfl | hp
        · rfl
        · exact hal p hp
    | [] => simp at h
    | [_] => simp at h; omega
    | [_, _] => simp at h; omega

/-! ## Header serialization and parsing -/

theorem write_32_length (v : Nat) : (write_32 v).length = 4 := by
  simp [write_32]

theorem qoiHeader_length (desc : qoi_desc) : (qoiHeader desc).length = 14 := by
  simp [qoiHeader, write_32]

theorem read_32_append (P L : List Nat) (k : Nat) :
    read_32 (P ++ L) (P.length + k) = read_32 L k := by
  unfold read_32
  rw [readByte_append,
    show P.length + k + 1 = P.length + (k + 1) from by omega, readByte_append,
    show P.length + k + 2 = P.length + (k + 2) from by omega, readByte_append,
    show P.length + k + 3 = P.length + (k + 3) from by omega, readByte_append]

theorem read_32_write_32 (v : Nat) (L : List Nat) (hv : v < 4294967296) :
    read_32 (write_32 v ++ L) 0 = v := by
  simp only [read_32, write_32, List.cons_append, List.nil_append,
    readByte_cons_zero, readByte_cons_succ]
  omega

/-- Parsing back the header that `qoi_encode` wrote recovers the magic
and the descriptor. -/
theorem parse_qoiHeader (desc : qoi_desc) (L : List Nat)
    (hw : desc.width < 4294967296) (hh : desc.height < 4294967296)
    (hc : desc.channels < 256) (hcs : desc.colorspace < 256) :
    read_32 (qoiHeader desc ++ L) 0 = QOI_MAGIC ∧
      parseDesc (qoiHeader desc ++ L) = desc := by
  have hsh : qoiHeader desc ++ L = write_32 QOI_MAGIC ++ (write_32 desc.width ++
      (write_32 desc.height ++ ([desc.channels, desc.colorspace] ++ L))) := by
    simp [qoiHeader]
  have hmagic : read_32 (qoiHeader desc ++ L) 0 = QOI_MAGIC := by
    rw [hsh]
    exact read_32_write_32 _ _ (by norm_num [QOI_MAGIC])
  have hwidth : read_32 (qoiHeader desc ++ L) 4 = desc.width := by
    rw [hsh, show (4 : Nat) = (write_32 QOI_MAGIC).length + 0 from by rw [write_32_length],
      read_32_append]
    exact read_32_write_32 _ _ hw
  have hheight : read_32 (qoiHeader desc ++ L) 8 = desc.height := by
    have hsh2 : qoiHeader desc ++ L = (write_32 QOI_MAGIC ++ write_32 desc.width) ++
        (write_32 desc.height ++ ([desc.channels, desc.colorspace] ++ L)) := by
      simp [qoiHeader]
    rw [hsh2, show (8 : Nat) = (write_32 QOI_MAGIC ++ write_32 desc.width).length + 0 from by
      simp [write_32_length], read_32_append]
    exact read_32_write_32 _ _ hh
  have hch : readByte (qoiHeader desc ++ L) 12 = desc.channels := by
    have hsh3 : qoiHeader desc ++ L =
        (write_32 QOI_MAGIC ++ write_32 desc.width ++ write_32 desc.height) ++
        (desc.channels :: desc.colorspace :: L) := by
      simp [qoiHeader]
    rw [hsh3, show (12 : Nat) =
        (write_32 QOI_MAGIC ++ write_32 desc.width ++ write_32 desc.height).length from by
      simp [write_32_length], readByte_append_zero, readByte_cons_zero]
    omega
  have hcsp : readByte (qoiHeader desc ++ L) 13 = desc.colorspace := by
    have hsh3 : qoiHeader desc ++ L =
        (write_32 QOI_MAGIC ++ write_32 desc.width ++ write_32 desc.height) ++
        (desc.channels :: desc.colorspace :: L) := by
      simp [qoiHeader]
    rw [hsh3, show (13 : Nat) =
        (write_32 QOI_MAGIC ++ write_32 desc.width ++ write_32 desc.height).length + 1 from by
      simp [write_32_length], readByte_append, readByte_cons_succ, readByte_cons_zero]
    omega
  refine ⟨hmagic, ?_⟩
  unfold parseDesc
  rw [hwidth, hheight, hch, hcsp]

/-! ## The round-trip theorem -/

/-- Encode-then-decode specification: for every descriptor the encoder
accepts and every matching pixel buffer of bytes, decoding the encoder's
output with the descriptor's channel count returns the pixel buffer
byte-for-byte along with the original descriptor, and the final hash
tables of the two loops are `MemRel`-related. -/
theorem qoi_encdec_spec (data : List Nat) (desc : qoi_desc)
    (hw : 0 < desc.width) (hh : 0 < desc.height)
    (hc : desc.channels = 3 ∨ desc.channels = 4)
    (hcs : desc.colorspace ≤ 1)
    (hcap : desc.height < QOI_MAXIMUM_PIXELS / desc.width)
    (hlen : data.length = desc.width * desc.height * desc.channels)
    (hdata : ∀ b ∈ data, b < 256) :
    ∃ out, qoi_encode data desc = some out ∧
      qoi_decode out out.length ⟨0, 0, 0, 0⟩ desc.channels = (some data, desc) ∧
      MemRel (qoi_encode_final data desc).mem
        (qoi_decode_final out out.length desc.channels).mem := by
  have hwh : (desc.height + 1) * desc.width ≤ QOI_MAXIMUM_PIXELS := by
    calc (desc.height + 1) * desc.width
        ≤ (QOI_MAXIMUM_PIXELS / desc.width) * desc.width :=
          Nat.mul_le_mul_right _ (by omega)
      _ ≤ QOI_MAXIMUM_PIXELS := Nat.div_mul_le_self _ _
  have hw32 : desc.width < 4294967296 := by
    have h1 : desc.width ≤ (desc.height + 1) * desc.width :=
      Nat.le_mul_of_pos_left _ (by omega)
    unfold QOI_MAXIMUM_PIXELS at hwh
    omega
  have hh32 : desc.height < 4294967296 := by
    have h1 : desc.height + 1 ≤ (desc.height + 1) * desc.width :=
      Nat.le_mul_of_pos_right _ hw
    unfold QOI_MAXIMUM_PIXELS at hwh
    omega
  have hbad : ¬ encBadDesc desc := by
    unfold encBadDesc
    rintro (h | h | ⟨h3, h4⟩ | h | h)
    · omega
    · omega
    · rcases hc with h' | h'
      · exact h3 h'
      · exact h4 h'
    · omega
    · omega
  have henc : qoi_encode data desc =
      some (qoiHeader desc ++ ((encLoop encInit (toPixels desc.channels data)).1 ++
        qoi_padding)) := by
    unfold qoi_encode
    rw [if_neg hbad, List.append_assoc]
  have hpx : (toPixels desc.channels data).length = desc.width * desc.height ∧
      fromPixels desc.channels (toPixels desc.channels data) = data ∧
      (∀ p ∈ toPixels desc.channels data, ValidPixel p) := by
    rcases hc with h | h
    · obtain ⟨h1, h2, h3⟩ := toPixels_spec_three (desc.width * desc.height) data
        (by rw [hlen, h]; ring)
      rw [h]
      exact ⟨h1, h2, (fun p hp => h3.1 hdata p hp)⟩
    · obtain ⟨h1, h2, h3⟩ := toPixels_spec_four (desc.width * desc.height) data
        (by rw [hlen, h]; ring)
      rw [h]
      exact ⟨h1, h2, h3 hdata⟩
  obtain ⟨hplen, hfrom, hvalid⟩ := hpx
  obtain ⟨hmagic, hparse⟩ := parse_qoiHeader desc
    ((encLoop encInit (toPixels desc.channels data)).1 ++ qoi_padding) hw32 hh32
    (by rcases hc with h | h <;> omega) (by omega)
  have hlen_out : (qoiHeader desc ++ ((encLoop encInit (toPixels desc.channels data)).1 ++
      qoi_padding)).length
      = 14 + ((encLoop encInit (toPixels desc.channels data)).1.length + 8) := by
    simp [qoiHeader_length, qoi_padding]
  have hargs : ¬ decBadArgs (qoiHeader desc ++
      ((encLoop encInit (toPixels desc.channels data)).1 ++ qoi_padding)).length
      desc.channels := by
    unfold decBadArgs QOI_HEADER_SIZE
    rintro (⟨h1, h2, h3⟩ | h)
    · rcases hc with h' | h'
      · exact h2 h'
      · exact h3 h'
    · rw [hlen_out] at h
      omega
  have hhdr : ¬ decBadHeader (qoiHeader desc ++
      ((encLoop encInit (toPixels desc.channels data)).1 ++ qoi_padding)) := by
    unfold decBadHeader
    rw [hparse, hmagic]
    rintro (h | h | h | h | h | h | h)
    · omega
    · omega
    · rcases hc with h' | h' <;> omega
    · rcases hc with h' | h' <;> omega
    · omega
    · exact h rfl
    · omega
  obtain ⟨dF, hsim, -, -, -, hmrel⟩ := encDecSim (toPixels desc.channels data) encInit decInit
    (qoiHeader desc) qoi_padding hvalid rfl rfl (qoiHeader_length desc).symm (MemRel.refl _)
    (Or.inr ⟨rfl, rfl⟩) (Nat.zero_le 61)
  rw [show encInit.run = 0 from rfl, show encInit.px_prev = pixInit from rfl,
    qoiHeader_length desc, Nat.zero_add] at hsim
  simp only [List.replicate_zero, List.nil_append, List.append_assoc] at hsim
  refine ⟨_, henc, ?_, ?_⟩
  · unfold qoi_decode
    rw [if_neg hargs, if_neg hhdr, hparse]
    dsimp only
    rw [if_neg (by rcases hc with h | h <;> omega : ¬ desc.channels = 0)]
    rw [show (qoiHeader desc ++ ((encLoop encInit (toPixels desc.channels data)).1 ++
        qoi_padding)).length - 8
        = 14 + (encLoop encInit (toPixels desc.channels data)).1.length from by
      rw [hlen_out]; omega]
    rw [show desc.width * desc.height = (toPixels desc.channels data).length from hplen.symm]
    rw [hsim]
    dsimp only
    rw [hfrom]
  · unfold qoi_encode_final qoi_decode_final
    rw [if_neg hargs, if_neg hhdr, hparse]
    rw [show (qoiHeader desc ++ ((encLoop encInit (toPixels desc.channels data)).1 ++
        qoi_padding)).length - 8
        = 14 + (encLoop encInit (toPixels desc.channels data)).1.length from by
      rw [hlen_out]; omega]
    rw [show desc.width * desc.height = (toPixels desc.channels data).length from hplen.symm]
    rw [hsim]
    exact hmrel

/-! ## Output-size bound of the encoder -/

/-- Per-step output bound: one encoder step emits at most 5 bytes plus
a pending-run byte it may owe, and at most 4 when the current pixel's
alpha matches the previous one (the `QOI_OP_RGBA` branch is then
unreachable).  The bound is amortized through the pending-run
indicator. -/
theorem encStep_len_bound (last : Bool) (p : Pixel) (e : EncSt) :
    (encStep last p e).2.length + (if (encStep last p e).1.run > 0 then 1 else 0)
        ≤ 5 + (if e.run > 0 then 1 else 0) ∧
      (encStep last p e).1.px_prev = p ∧
      (p.a = e.px_prev.a →
        (encStep last p e).2.length + (if (encStep last p e).1.run > 0 then 1 else 0)
          ≤ 4 + (if e.run > 0 then 1 else 0)) := by
  by_cases h1 : p = e.px_prev
  · by_cases h2 : e.run + 1 = QOI_MAXIMUM_RUN ∨ last = true
    · rw [encStep_run_flush last p e h1 h2]
      refine ⟨?_, rfl, fun _ => ?_⟩ <;> dsimp only <;> split_ifs <;> first | omega | simp
    · rw [encStep_run_cont last p e h1 h2]
      refine ⟨?_, rfl, fun _ => ?_⟩ <;> dsimp only <;> split_ifs <;> first | omega | simp
  · by_cases h3 : p = e.mem (qoi_hash p)
    · rw [encStep_index last p e h1 h3]
      refine ⟨?_, rfl, fun _ => ?_⟩ <;> dsimp only <;> split_ifs <;> first | omega | simp
    · by_cases h4 : p.a = e.px_prev.a
      · by_cases h5 : DiffOk p e.px_prev
        · rw [encStep_diff last p e h1 h3 h4 h5]
          refine ⟨?_, rfl, fun _ => ?_⟩ <;> dsimp only <;> split_ifs <;> first | omega | simp
        · by_cases h6 : LumaOk p e.px_prev
          · rw [encStep_luma last p e h1 h3 h4 h5 h6]
            refine ⟨?_, rfl, fun _ => ?_⟩ <;> dsimp only <;> split_ifs <;> first | omega | simp
          · rw [encStep_rgb last p e h1 h3 h4 h5 h6]
            refine ⟨?_, rfl, fun _ => ?_⟩ <;> dsimp only <;> split_ifs <;> first | omega | simp
      · rw [encStep_rgba last p e h1 h3 h4]
        refine ⟨?_, rfl, fun ha => absurd ha h4⟩
        dsimp only
        split_ifs <;> first | omega | simp

/-- The encoder main loop emits at most 5 bytes per pixel. -/
theorem encLoop_len_bound5 : ∀ (ps : List Pixel) (e : EncSt),
    (encLoop e ps).1.length + (if (encLoop e ps).2.run > 0 then 1 else 0)
      ≤ 5 * ps.length + (if e.run > 0 then 1 else 0) := by
  intro ps
  induction ps with
  | nil => intro e; simp [encLoop]
  | cons p rest ih =>
    intro e
    have hstep := (encStep_len_bound rest.isEmpty p e).1
    have hrec := ih (encStep rest.isEmpty p e).1
    rw [show encLoop e (p :: rest) =
        ((encStep rest.isEmpty p e).2 ++ (encLoop (encStep rest.isEmpty p e).1 rest).1,
          (encLoop (encStep rest.isEmpty p e).1 rest).2) from rfl]
    dsimp only
    rw [List.length_append]
    simp only [List.length_cons]
    omega

/-- With constant alpha 255 the encoder main loop emits at most 4 bytes
per pixel (no `QOI_OP_RGBA` chunks). -/
theorem encLoop_len_bound4 : ∀ (ps : List Pixel) (e : EncSt),
    e.px_prev.a = 255 → (∀ p ∈ ps, p.a = 255) →
    (encLoop e ps).1.length + (if (encLoop e ps).2.run > 0 then 1 else 0)
      ≤ 4 * ps.length + (if e.run > 0 then 1 else 0) := by
  intro ps
  induction ps with
  | nil => intro e _ _; simp [encLoop]
  | cons p rest ih =>
    intro e hprev hall
    have hstep := (encStep_len_bound rest.isEmpty p e).2.2
      (by rw [hall p (List.mem_cons_self p rest), hprev])
    have hpx := (encStep_len_bound rest.isEmpty p e).2.1
    have hrec := ih (encStep rest.isEmpty p e).1
      (by rw [hpx]; exact hall p (List.mem_cons_self p rest))
      (fun q hq => hall q (List.mem_cons_of_mem p hq))
    rw [show encLoop e (p :: rest) =
        ((encStep rest.isEmpty p e).2 ++ (encLoop (encStep rest.isEmpty p e).1 rest).1,
          (encLoop (encStep rest.isEmpty p e).1 rest).2) from rfl]
    dsimp only
    rw [List.length_append]
    simp only [List.length_cons]
    omega

/-! ## Bounds on the decoder's input reads -/

theorem decStepReads_bound (bytes : List Nat) (ce : Nat) (s : DecSt) (i : Nat)
    (hi : i ∈ decStepReads bytes ce s) : i ≤ ce + 3 := by
  simp only [decStepReads] at hi
  split_ifs at hi with h1 h2 h3 h4 h5
  · simp at hi
  · simp at hi
    omega
  · simp at hi
    omega
  · simp at hi
    omega
  · simp at hi
    omega
  · simp at hi

theorem decLoopReads_bound (bytes : List Nat) (ce : Nat) :
    ∀ (n : Nat) (s : DecSt) (i : Nat), i ∈ decLoopReads bytes ce n s → i ≤ ce + 3 := by
  intro n
  induction n with
  | zero =>
    intro s i hi
    simp [decLoopReads] at hi
  | succ k ih =>
    intro s i hi
    rw [show decLoopReads bytes ce (k + 1) s
        = decStepReads bytes ce s ++ decLoopReads bytes ce k (decStep bytes ce s).1
        from rfl] at hi
    rcases List.mem_append.mp hi with h | h
    · exact decStepReads_bound bytes ce s i h
    · exact ih _ i h

/-! ## Claim theorems -/

/-- C1: Round-trip.  For every valid pixel buffer (matching byte count,
positive dimensions, channels 3 or 4, colorspace at most 1, within the
pixel cap as the code checks it) and descriptor, decoding the output of
`qoi_encode` with target channels equal to the descriptor's channel
count yields the original pixel buffer byte-for-byte and a descriptor
equal to the original in all four fields. -/
theorem qoi_c1_roundtrip (data : List Nat) (desc : qoi_desc)
    (hw : 0 < desc.width) (hh : 0 < desc.height)
    (hc : desc.channels = 3 ∨ desc.channels = 4)
    (hcs : desc.colorspace ≤ 1)
    (hcap : desc.height < QOI_MAXIMUM_PIXELS / desc.width)
    (hlen : data.length = desc.width * desc.height * desc.channels)
    (hdata : ∀ b ∈ data, b < 256) :
    ∃ out, qoi_encode data desc = some out ∧
      qoi_decode out out.length ⟨0, 0, 0, 0⟩ desc.channels = (some data, desc) := by
  obtain ⟨out, h1, h2, -⟩ := qoi_encdec_spec data desc hw hh hc hcs hcap hlen hdata
  exact ⟨out, h1, h2⟩

/-- Witness for C1 at a concrete 1x1 RGBA image. -/
theorem qoi_c1_roundtrip_witness :
    qoi_encode [1, 2, 3, 4] ⟨1, 1, 4, 0⟩ =
      some [113, 111, 105, 102, 0, 0, 0, 1, 0, 0, 0, 1, 4, 0, 255, 1, 2, 3, 4,
        0, 0, 0, 0, 0, 0, 0, 1] ∧
    qoi_decode [113, 111, 105, 102, 0, 0, 0, 1, 0, 0, 0, 1, 4, 0, 255, 1, 2, 3, 4,
        0, 0, 0, 0, 0, 0, 0, 1] 27 ⟨0, 0, 0, 0⟩ 4 = (some [1, 2, 3, 4], ⟨1, 1, 4, 0⟩) := by
  obtain ⟨out, h1, h2⟩ := qoi_c1_roundtrip [1, 2, 3, 4] ⟨1, 1, 4, 0⟩ (by decide) (by decide)
    (Or.inr rfl) (by decide) (by decide) (by decide) (by decide)
  have hout : out = [113, 111, 105, 102, 0, 0, 0, 1, 0, 0, 0, 1, 4, 0, 255, 1, 2, 3, 4,
      0, 0, 0, 0, 0, 0, 0, 1] :=
    Option.some.inj (h1.symm.trans (by decide))
  subst hout
  exact ⟨h1, h2⟩

/-- C2 counterexample: after encoding and decoding the 1x1 image whose
pixel is the initial previous pixel `(0,0,0,255)` (a single RUN opcode),
the decoder's hash table holds `(0,0,0,255)` at slot 53 — written by the
decoder's unconditional table update after the RUN opcode (qoi.c line
320) — while the encoder's table still holds the zero entry there, so
the two tables do not agree entry-wise and the decoder did update its
table after a RUN opcode. -/
theorem qoi_c2_counterexample :
    qoi_encode [0, 0, 0, 255] ⟨1, 1, 4, 0⟩ =
      some [113, 111, 105, 102, 0, 0, 0, 1, 0, 0, 0, 1, 4, 0, 192,
        0, 0, 0, 0, 0, 0, 0, 1] ∧
    (qoi_decode_final [113, 111, 105, 102, 0, 0, 0, 1, 0, 0, 0, 1, 4, 0, 192,
        0, 0, 0, 0, 0, 0, 0, 1] 23 4).mem 53 = pixInit ∧
    (qoi_encode_final [0, 0, 0, 255] ⟨1, 1, 4, 0⟩).mem 53 = pix0 ∧
    pixInit ≠ pix0 := by
  decide

/-- C2 (amended): the decoder updates `table[hash(curr)] = curr` after
every opcode it reads, RUN opcodes included (qoi.c line 320); for every
valid image, after encode-then-decode the two hash tables agree on every
slot except possibly slot `53 = hash (0,0,0,255)`, where the decoder may
hold the initial pixel `(0,0,0,255)` while the encoder still holds the
zero-initialized entry. -/
theorem qoi_c2_table_relation (data : List Nat) (desc : qoi_desc) (out : List Nat) (j : Nat)
    (hw : 0 < desc.width) (hh : 0 < desc.height)
    (hc : desc.channels = 3 ∨ desc.channels = 4)
    (hcs : desc.colorspace ≤ 1)
    (hcap : desc.height < QOI_MAXIMUM_PIXELS / desc.width)
    (hlen : data.length = desc.width * desc.height * desc.channels)
    (hdata : ∀ b ∈ data, b < 256)
    (hout : qoi_encode data desc = some out) :
    (qoi_decode_final out out.length desc.channels).mem j
        = (qoi_encode_final data desc).mem j ∨
      (j = 53 ∧ (qoi_encode_final data desc).mem j = pix0 ∧
        (qoi_decode_final out out.length desc.channels).mem j = pixInit) := by
  obtain ⟨out', h1, -, hmr⟩ := qoi_encdec_spec data desc hw hh hc hcs hcap hlen hdata
  have hoo : out' = out := Option.some.inj (h1.symm.trans hout)
  subst hoo
  rcases hmr with heq | ⟨h53, hupd⟩
  · left
    rw [heq]
  · by_cases hj : j = 53
    · subst hj
      right
      exact ⟨rfl, h53, by rw [hupd]; exact Function.update_same _ _ _⟩
    · left
      rw [hupd, Function.update_noteq hj]

/-- Witness for the amended C2 at the 1x1 RUN image and slot 53. -/
theorem qoi_c2_table_relation_witness :
    (qoi_decode_final [113, 111, 105, 102, 0, 0, 0, 1, 0, 0, 0, 1, 4, 0, 192,
        0, 0, 0, 0, 0, 0, 0, 1] 23 4).mem 53
      = (qoi_encode_final [0, 0, 0, 255] ⟨1, 1, 4, 0⟩).mem 53 ∨
    ((53 : Nat) = 53 ∧ (qoi_encode_final [0, 0, 0, 255] ⟨1, 1, 4, 0⟩).mem 53 = pix0 ∧
      (qoi_decode_final [113, 111, 105, 102, 0, 0, 0, 1, 0, 0, 0, 1, 4, 0, 192,
        0, 0, 0, 0, 0, 0, 0, 1] 23 4).mem 53 = pixInit) :=
  qoi_c2_table_relation [0, 0, 0, 255] ⟨1, 1, 4, 0⟩
    [113, 111, 105, 102, 0, 0, 0, 1, 0, 0, 0, 1, 4, 0, 192, 0, 0, 0, 0, 0, 0, 0, 1] 53
    (by decide) (by decide) (Or.inr rfl) (by decide) (by decide) (by decide) (by decide)
    (by decide)

/-- C3 counterexample: `qoi_encode` reports `INVALID_ARGUMENT` for the
descriptor `width 3, height 133333333, channels 4, colorspace 0` even
though no condition of the claim holds: both dimensions are nonzero, the
channels and colorspace are fine, and `height * width = 399999999` does
not exceed the 400 000 000 pixel cap. -/
theorem qoi_c3_counterexample :
    qoi_encode [] ⟨3, 133333333, 4, 0⟩ = none ∧
    133333333 * 3 < 400000000 ∧ (3 : Nat) ≠ 0 ∧ (133333333 : Nat) ≠ 0 ∧
      ((4 : Nat) = 3 ∨ (4 : Nat) = 4) ∧ (0 : Nat) ≤ 1 := by
  decide

/-- C3 (amended): `qoi_encode` fails with `INVALID_ARGUMENT` if and only
if width or height is zero, channels is not 3 or 4, colorspace exceeds
1, or `height >= 400000000 / width` with truncating integer division —
not `height * width > 400000000`. -/
theorem qoi_c3_invalid_iff (data : List Nat) (desc : qoi_desc) :
    qoi_encode data desc = none ↔
      desc.width = 0 ∨ desc.height = 0 ∨ (desc.channels ≠ 3 ∧ desc.channels ≠ 4) ∨
        desc.colorspace > 1 ∨ desc.height ≥ QOI_MAXIMUM_PIXELS / desc.width := by
  constructor
  · intro hn
    unfold qoi_encode at hn
    split_ifs at hn with h
    exact h
  · intro hbd
    unfold qoi_encode
    rw [if_pos (show encBadDesc desc from hbd)]

/-- C4 counterexample: on a 22-byte all-zero input (magic mismatch and
zero dimensions) `qoi_decode` fails, but the caller-supplied descriptor
is overwritten with the parsed header fields instead of being left
unchanged. -/
theorem qoi_c4_counterexample :
    (qoi_decode (List.replicate 22 0) 22 ⟨7, 7, 7, 7⟩ 0).1 = none ∧
    (qoi_decode (List.replicate 22 0) 22 ⟨7, 7, 7, 7⟩ 0).2 ≠ ⟨7, 7, 7, 7⟩ := by
  decide

/-- C4 (amended): on failures detected before header parsing (bad target
channels or a buffer shorter than 22 bytes) `qoi_decode` returns the
failure indicator with the descriptor unchanged; on header-validation
failures it returns the failure indicator but the descriptor has already
been overwritten with the parsed header fields (qoi.c lines 252-255 run
before the checks of lines 257-259). -/
theorem qoi_c4_error_desc (bytes : List Nat) (desc0 : qoi_desc) (channels : Nat) :
    (decBadArgs bytes.length channels →
      qoi_decode bytes bytes.length desc0 channels = (none, desc0)) ∧
    (¬ decBadArgs bytes.length channels → decBadHeader bytes →
      qoi_decode bytes bytes.length desc0 channels = (none, parseDesc bytes)) := by
  constructor
  · intro h
    unfold qoi_decode
    rw [if_pos h]
  · intro h1 h2
    unfold qoi_decode
    rw [if_neg h1, if_pos h2]

/-- Witness for the amended C4: a bad-channels call leaves the
descriptor untouched; a magic-mismatch call overwrites it. -/
theorem qoi_c4_error_desc_witness :
    qoi_decode (List.replicate 22 0) 22 ⟨7, 7, 7, 7⟩ 5 = (none, ⟨7, 7, 7, 7⟩) ∧
    qoi_decode (List.replicate 22 0) 22 ⟨7, 7, 7, 7⟩ 0 = (none, ⟨0, 0, 0, 0⟩) :=
  ⟨(qoi_c4_error_desc (List.replicate 22 0) ⟨7, 7, 7, 7⟩ 5).1 (by decide),
   (qoi_c4_error_desc (List.replicate 22 0) ⟨7, 7, 7, 7⟩ 0).2 (by decide) (by decide)⟩

/-- C5: stream framing.  Every successful `qoi_encode` output starts
with the 14-byte header — magic bytes `0x71 0x6f 0x69 0x66`, width and
height as big-endian u32, the channels byte and the colorspace byte —
and its last 8 bytes are the terminator `00 00 00 00 00 00 00 01`. -/
theorem qoi_c5_framing (data : List Nat) (desc : qoi_desc) (out : List Nat)
    (h : qoi_encode data desc = some out) :
    out.take 14 = [0x71, 0x6f, 0x69, 0x66] ++ write_32 desc.width ++
      write_32 desc.height ++ [desc.channels, desc.colorspace] ∧
    22 ≤ out.length ∧
    out.drop (out.length - 8) = [0, 0, 0, 0, 0, 0, 0, 1] := by
  unfold qoi_encode at h
  by_cases hb : encBadDesc desc
  · rw [if_pos hb] at h
    exact Option.noConfusion h
  · rw [if_neg hb] at h
    injection h with h'
    subst h'
    refine ⟨?_, ?_, ?_⟩
    · rw [List.append_assoc, List.take_left' (qoiHeader_length desc)]
      unfold qoiHeader
      rw [show write_32 QOI_MAGIC = [0x71, 0x6f, 0x69, 0x66] from by decide]
    · have h14 := qoiHeader_length desc
      simp only [List.length_append, h14]
      simp [qoi_padding]
    · rw [show (qoiHeader desc ++ (encLoop encInit (toPixels desc.channels data)).1 ++
          qoi_padding).length - 8
          = (qoiHeader desc ++ (encLoop encInit (toPixels desc.channels data)).1).length
          from by
        simp only [List.length_append, qoiHeader_length, qoi_padding,
          List.length_cons, List.length_nil]
        omega]
      rw [List.drop_left]
      rfl

/-- Witness for C5 at a concrete 1x1 RGBA image. -/
theorem qoi_c5_framing_witness :
    ([113, 111, 105, 102, 0, 0, 0, 1, 0, 0, 0, 1, 4, 0, 255, 1, 2, 3, 4,
        0, 0, 0, 0, 0, 0, 0, 1] : List Nat).take 14
      = [113, 111, 105, 102, 0, 0, 0, 1, 0, 0, 0, 1, 4, 0] ∧
    22 ≤ ([113, 111, 105, 102, 0, 0, 0, 1, 0, 0, 0, 1, 4, 0, 255, 1, 2, 3, 4,
        0, 0, 0, 0, 0, 0, 0, 1] : List Nat).length ∧
    ([113, 111, 105, 102, 0, 0, 0, 1, 0, 0, 0, 1, 4, 0, 255, 1, 2, 3, 4,
        0, 0, 0, 0, 0, 0, 0, 1] : List Nat).drop
        (([113, 111, 105, 102, 0, 0, 0, 1, 0, 0, 0, 1, 4, 0, 255, 1, 2, 3, 4,
        0, 0, 0, 0, 0, 0, 0, 1] : List Nat).length - 8)
      = [0, 0, 0, 0, 0, 0, 0, 1] :=
  qoi_c5_framing [1, 2, 3, 4] ⟨1, 1, 4, 0⟩
    [113, 111, 105, 102, 0, 0, 0, 1, 0, 0, 0, 1, 4, 0, 255, 1, 2, 3, 4,
      0, 0, 0, 0, 0, 0, 0, 1] (by decide)

/-- C6: output-capacity safety.  The byte count returned by a successful
`qoi_encode` never exceeds the allocated capacity
`width*height*(channels+1) + 14 + 8`; every output-buffer store happens
at the index equal to the current output length, hence strictly below
this capacity. -/
theorem qoi_c6_capacity (data : List Nat) (desc : qoi_desc) (out : List Nat)
    (hlen : data.length = desc.width * desc.height * desc.channels)
    (h : qoi_encode data desc = some out) :
    out.length ≤ desc.width * desc.height * (desc.channels + 1) + 14 + 8 := by
  unfold qoi_encode at h
  by_cases hb : encBadDesc desc
  · rw [if_pos hb] at h
    exact Option.noConfusion h
  · rw [if_neg hb] at h
    injection h with h'
    subst h'
    have hch : desc.channels = 3 ∨ desc.channels = 4 := by
      by_contra hcc
      push_neg at hcc
      exact hb (Or.inr (Or.inr (Or.inl hcc)))
    simp only [List.length_append, qoiHeader_length]
    rcases hch with h3 | h4
    · obtain ⟨hplen, -, -, hal⟩ := toPixels_spec_three (desc.width * desc.height) data
        (by rw [hlen, h3]; ring)
      have hb4 := encLoop_len_bound4 (toPixels 3 data) encInit rfl hal
      rw [hplen, show (if encInit.run > 0 then 1 else 0) = 0 from rfl] at hb4
      rw [h3]
      simp only [qoi_padding, List.length_cons, List.length_nil]
      generalize hn : desc.width * desc.height = n at hb4 ⊢
      omega
    · obtain ⟨hplen, -, -⟩ := toPixels_spec_four (desc.width * desc.height) data
        (by rw [hlen, h4]; ring)
      have hb5 := encLoop_len_bound5 (toPixels 4 data) encInit
      rw [hplen, show (if encInit.run > 0 then 1 else 0) = 0 from rfl] at hb5
      rw [h4]
      simp only [qoi_padding, List.length_cons, List.length_nil]
      generalize hn : desc.width * desc.height = n at hb5 ⊢
      omega

/-- Witness for C6 at a concrete 1x1 RGBA image. -/
theorem qoi_c6_capacity_witness :
    ([113, 111, 105, 102, 0, 0, 0, 1, 0, 0, 0, 1, 4, 0, 255, 1, 2, 3, 4,
        0, 0, 0, 0, 0, 0, 0, 1] : List Nat).length ≤ 1 * 1 * (4 + 1) + 14 + 8 :=
  qoi_c6_capacity [1, 2, 3, 4] ⟨1, 1, 4, 0⟩
    [113, 111, 105, 102, 0, 0, 0, 1, 0, 0, 0, 1, 4, 0, 255, 1, 2, 3, 4,
      0, 0, 0, 0, 0, 0, 0, 1] (by decide) (by decide)

/-- C7 counterexample: an image of 62 identical pixels `(1,0,0,255)`
does not encode as a single RUN byte `0xFD`: its chunk stream is a DIFF
byte `0x7a` followed by the RUN byte `0xFC` (the first pixel differs
from the initial previous pixel, so the run only reaches 61). -/
theorem qoi_c7_counterexample :
    qoi_encode (List.flatten (List.replicate 62 [1, 0, 0, 255])) ⟨62, 1, 4, 0⟩ =
      some [113, 111, 105, 102, 0, 0, 0, 62, 0, 0, 0, 1, 4, 0, 122, 252,
        0, 0, 0, 0, 0, 0, 0, 1] ∧
    [(122 : Nat), 252] ≠ [0xfd] := by
  decide

/-- C7 (amended): for identical pixels equal to the initial previous
pixel `(0,0,0,255)`, an image of 62 of them encodes with a chunk stream
of exactly one RUN byte `0xFD`, and an image of 63 of them encodes as
RUN(62) (`0xFD`) followed by RUN(1) (`0xC0`), between the header and the
terminator. -/
theorem qoi_c7_run_boundary :
    qoi_encode (List.flatten (List.replicate 62 [0, 0, 0, 255])) ⟨62, 1, 4, 0⟩ =
      some [113, 111, 105, 102, 0, 0, 0, 62, 0, 0, 0, 1, 4, 0, 0xfd,
        0, 0, 0, 0, 0, 0, 0, 1] ∧
    qoi_encode (List.flatten (List.replicate 63 [0, 0, 0, 255])) ⟨63, 1, 4, 0⟩ =
      some [113, 111, 105, 102, 0, 0, 0, 63, 0, 0, 0, 1, 4, 0, 0xfd, 0xc0,
        0, 0, 0, 0, 0, 0, 0, 1] := by
  decide

/-- C8: the 1x1 image with the single pixel `(0,0,0,0)` encodes that
pixel as the INDEX opcode for slot `hash (0,0,0,0) = 0`, i.e. the single
chunk byte `0x00`, because the zero-initialized table already holds
`(0,0,0,0)` at slot 0. -/
theorem qoi_c8_zero_index :
    qoi_hash ⟨0, 0, 0, 0⟩ = 0 ∧
    qoi_encode [0, 0, 0, 0] ⟨1, 1, 4, 0⟩ =
      some ([113, 111, 105, 102, 0, 0, 0, 1, 0, 0, 0, 1, 4, 0] ++ [QOI_OP_INDEX + 0] ++
        [0, 0, 0, 0, 0, 0, 0, 1]) := by
  decide

/-- C9: decoder exhaustion behaviour.  Any input passing the argument
and header checks decodes without failure, and whenever the opcode
region is exhausted with no pending run, every remaining output position
is filled with the current pixel. -/
theorem qoi_c9_exhaustion (bytes : List Nat) (desc0 : qoi_desc) (channels n : Nat)
    (s : DecSt)
    (hargs : ¬ decBadArgs bytes.length channels) (hhdr : ¬ decBadHeader bytes)
    (h1 : s.run = 0) (h2 : bytes.length - 8 ≤ s.idx) :
    (qoi_decode bytes bytes.length desc0 channels).1.isSome ∧
    (decLoop bytes (bytes.length - 8) n s).1 = List.replicate n s.px_curr := by
  constructor
  · unfold qoi_decode
    rw [if_neg hargs, if_neg hhdr]
    rfl
  · rw [decLoop_exhausted bytes (bytes.length - 8) n s h1 h2]

/-- Witness for C9: a valid 22-byte stream with an empty chunk region
(1x2 image) decodes successfully, and an exhausted state replicates its
current pixel. -/
theorem qoi_c9_exhaustion_witness :
    (qoi_decode [113, 111, 105, 102, 0, 0, 0, 1, 0, 0, 0, 2, 4, 0,
        0, 0, 0, 0, 0, 0, 0, 1] 22 ⟨0, 0, 0, 0⟩ 0).1.isSome ∧
    (decLoop [113, 111, 105, 102, 0, 0, 0, 1, 0, 0, 0, 2, 4, 0,
        0, 0, 0, 0, 0, 0, 0, 1] 14 2 ⟨⟨9, 8, 7, 6⟩, fun _ => pix0, 0, 14⟩).1
      = List.replicate 2 ⟨9, 8, 7, 6⟩ :=
  qoi_c9_exhaustion [113, 111, 105, 102, 0, 0, 0, 1, 0, 0, 0, 2, 4, 0,
      0, 0, 0, 0, 0, 0, 0, 1] ⟨0, 0, 0, 0⟩ 0 2 ⟨⟨9, 8, 7, 6⟩, fun _ => pix0, 0, 14⟩
    (by decide) (by decide) rfl (by decide)

/-- C10: decoder in-bounds reads.  On a buffer of at least 22 bytes that
passes header validation, every index `qoi_decode` reads is strictly
below the buffer length, and every main-loop read (index at least 14)
stays at least 5 bytes short of the end — i.e. reaches at most 4 bytes
into the 8-byte terminator region. -/
theorem qoi_c10_reads_in_bounds (bytes : List Nat) (channels : Nat)
    (hsz : 22 ≤ bytes.length) (hhdr : ¬ decBadHeader bytes) :
    (∀ i ∈ qoi_decode_reads bytes bytes.length channels, i < bytes.length) ∧
    (∀ i ∈ qoi_decode_reads bytes bytes.length channels, 14 ≤ i → i + 5 ≤ bytes.length) := by
  have hbound : ∀ i ∈ qoi_decode_reads bytes bytes.length channels,
      i ≤ 13 ∨ i ≤ bytes.length - 8 + 3 := by
    intro i hi
    unfold qoi_decode_reads at hi
    by_cases hb1 : decBadArgs bytes.length channels
    · rw [if_pos hb1] at hi
      simp at hi
    · rw [if_neg hb1, if_neg hhdr] at hi
      rcases List.mem_append.mp hi with h | h
      · left
        simp at h
        omega
      · right
        exact decLoopReads_bound bytes (bytes.length - 8) _ _ i h
  constructor
  · intro i hi
    rcases hbound i hi with h | h <;> omega
  · intro i hi h14
    rcases hbound i hi with h | h <;> omega

/-- Witness for C10 at a concrete valid 22-byte stream and read index 0. -/
theorem qoi_c10_reads_in_bounds_witness :
    (0 : Nat) < ([113, 111, 105, 102, 0, 0, 0, 1, 0, 0, 0, 2, 4, 0,
        0, 0, 0, 0, 0, 0, 0, 1] : List Nat).length :=
  (qoi_c10_reads_in_bounds [113, 111, 105, 102, 0, 0, 0, 1, 0, 0, 0, 2, 4, 0,
      0, 0, 0, 0, 0, 0, 0, 1] 0 (by decide) (by decide)).1 0 (by decide)

end Qoi

